import Mathlib

/-!
Verification of the reconciliation contract of the terraform-provider-vault
resources: the GCP auth backend configuration resource and the generic auth
backend resource. The Go sources are shallowly embedded: Terraform resource
data becomes an explicit record of an identity plus a keyed attribute list,
and the remote Vault client (an external collaborator) becomes an explicit
result argument (`Except`/`Option`) passed to each operation.
-/

namespace VaultProvider

/-- A schema field value: Terraform attributes here are strings, booleans,
integers, or sets/lists of strings. Models the dynamic `interface{}` values
held by `schema.ResourceData`. -/
inductive FieldVal where
  | str (s : String)
  | boolv (b : Bool)
  | intv (n : Int)
  | strList (xs : List String)
deriving DecidableEq, Repr

/-- Local resource state: the resource identity (`d.Id()`) plus the attribute
map (`d.Get` / `d.Set`). Attributes absent from the list are unset. -/
structure ResourceData where
  id : String
  attrs : List (String × FieldVal)
deriving DecidableEq, Repr

/-- Look a key up in an attribute list (first binding wins). -/
def attrLookup : List (String × FieldVal) → String → Option FieldVal
  | [], _ => none
  | (k', v) :: rest, k => if k' = k then some v else attrLookup rest k

/-- Insert or overwrite a key in an attribute list, keeping one binding per
key: models assignment into a Go `map[string]interface{}`. -/
def mapSet : List (String × FieldVal) → String → FieldVal → List (String × FieldVal)
  | [], k, v => [(k, v)]
  | (k', v') :: rest, k, v =>
    if k' = k then (k, v) :: rest else (k', v') :: mapSet rest k v

/-- The zero value of a field, used by Terraform's `GetOk`. -/
def isZeroVal : FieldVal → Bool
  | .str s => s = ""
  | .boolv b => !b
  | .intv n => n == 0
  | .strList xs => xs.isEmpty

/-- `d.Get`: the stored attribute, or the schema default when unset.
The schema default function is passed per resource type. -/
def dGet (dflt : String → FieldVal) (d : ResourceData) (k : String) : FieldVal :=
  match attrLookup d.attrs k with
  | some v => v
  | none => dflt k

/-- `d.GetOk`: the value together with `ok`, false when the value is the
zero value for its type. -/
def dGetOk (dflt : String → FieldVal) (d : ResourceData) (k : String) : FieldVal × Bool :=
  let v := dGet dflt d k
  (v, !isZeroVal v)

/-- Go type assertion `v.(string)`. -/
def asString : FieldVal → String
  | .str s => s
  | _ => ""

/-- Go type assertion `v.(bool)`. -/
def asBool : FieldVal → Bool
  | .boolv b => b
  | _ => false

/-- Go type assertion `v.(int)`. -/
def asInt : FieldVal → Int
  | .intv n => n
  | _ => 0

/-- Go conversion `v.(*schema.Set).List()` to a list of strings. -/
def asStrList : FieldVal → List String
  | .strList xs => xs
  | _ => []

/-- `d.SetId`. -/
def setId (d : ResourceData) (i : String) : ResourceData :=
  { d with id := i }

/-- `d.Set k v`. -/
def setAttr (d : ResourceData) (k : String) (v : FieldVal) : ResourceData :=
  { d with attrs := mapSet d.attrs k v }

/-- Schema defaults of `gcpAuthConfigResource`: `path` defaults to "gcp",
both default-metadata flags default to true, the metadata sets to empty sets,
all string attributes to the empty string. -/
def gcpDefault : String → FieldVal
  | "path" => .str "gcp"
  | "default_iam_metadata" => .boolv true
  | "default_gce_metadata" => .boolv true
  | "iam_metadata" => .strList []
  | "gce_metadata" => .strList []
  | _ => .str ""

/-- Schema defaults of `authBackendResource`: integers zero, sets empty,
booleans false, strings empty. -/
def authDefault : String → FieldVal
  | "default_lease_ttl_seconds" => .intv 0
  | "max_lease_ttl_seconds" => .intv 0
  | "audit_non_hmac_request_keys" => .strList []
  | "audit_non_hmac_response_keys" => .strList []
  | "passthrough_request_headers" => .strList []
  | "allowed_response_headers" => .strList []
  | "local" => .boolv false
  | "seal_wrap" => .boolv false
  | _ => .str ""

/-- Drop leading '/' characters: the front half of Go `strings.Trim(s, "/")`. -/
def ltrimSlashes (s : List Char) : List Char :=
  s.dropWhile (fun c => c == '/')

/-- Drop trailing '/' characters: the rear half of Go `strings.Trim(s, "/")`. -/
def rtrimSlashes (s : List Char) : List Char :=
  (s.reverse.dropWhile (fun c => c == '/')).reverse

/-- Go `strings.Trim(s, "/")`. -/
def trimSlashes (s : List Char) : List Char :=
  rtrimSlashes (ltrimSlashes s)

/-- `gcpAuthBackendConfigPath`: `"auth/" + strings.Trim(path, "/") + "/config"`. -/
def gcpAuthBackendConfigPath (path : String) : String :=
  "auth/" ++ String.mk (trimSlashes path.data) ++ "/config"

/-- The payload map assembled by `gcpAuthConfigureWrite`: the three string
fields are copied only when `GetOk` reports them set and non-zero; the two
metadata keys are always assigned, either the literal sentinel "default"
(flag true) or the collection's list of elements (flag false). -/
def gcpWritePayload (d : ResourceData) : List (String × FieldVal) :=
  let data : List (String × FieldVal) := []
  let cred := dGetOk gcpDefault d "credentials"
  let data := if cred.2 then mapSet data "credentials" (.str (asString cred.1)) else data
  let ia := dGetOk gcpDefault d "iam_alias"
  let data := if ia.2 then mapSet data "iam_alias" (.str (asString ia.1)) else data
  let ga := dGetOk gcpDefault d "gce_alias"
  let data := if ga.2 then mapSet data "gce_alias" (.str (asString ga.1)) else data
  let iamMetadata := asStrList (dGet gcpDefault d "iam_metadata")
  let defaultIamMetadata := asBool (dGet gcpDefault d "default_iam_metadata")
  let data :=
    if defaultIamMetadata then mapSet data "iam_metadata" (FieldVal.str "default")
    else mapSet data "iam_metadata" (FieldVal.strList iamMetadata)
  let gceMetadata := asStrList (dGet gcpDefault d "gce_metadata")
  let defaultGceMetadata := asBool (dGet gcpDefault d "default_gce_metadata")
  let data :=
    if defaultGceMetadata then mapSet data "gce_metadata" (FieldVal.str "default")
    else mapSet data "gce_metadata" (FieldVal.strList gceMetadata)
  data

/-- Response data of a successful `client.Logical().Read`: `none` models a
nil response (object absent), `some m` the response's `Data` map. -/
abbrev ReadResult := Except String (Option (List (String × FieldVal)))

/-- The keys `gcpAuthConfigureRead` copies from the response into state. -/
def gcpReadKeys : List String :=
  ["credentials", "iam_alias", "gce_alias", "iam_metadata", "gce_metadata",
   "private_key_id", "client_id", "project_id", "client_email"]

/-- `gcpAuthConfigureRead`: on transport error, state is untouched and the
error carries the path and cause; on a nil response the identity is cleared;
otherwise each schema key present in the response is copied into state. -/
def gcpAuthConfigureRead (d : ResourceData) (readRes : ReadResult) :
    ResourceData × Option String :=
  let path := gcpAuthBackendConfigPath d.id
  match readRes with
  | .error cause =>
    (d, some ("error reading GCP Auth config \"" ++ path ++ "\": " ++ cause))
  | .ok none => (setId d "", none)
  | .ok (some respData) =>
    (gcpReadKeys.foldl
      (fun acc k =>
        match attrLookup respData k with
        | some v => setAttr acc k v
        | none => acc) d,
     none)

/-- `gcpAuthConfigureWrite`: sets the identity from the `path` attribute,
assembles `gcpWritePayload`, and issues the remote write (whose outcome is
the `writeRes` argument: `none` is success, `some cause` a failure).  On
failure the identity is cleared and the error carries the path and cause;
on success the operation finishes with a read-back. -/
def gcpAuthConfigureWrite (d : ResourceData) (writeRes : Option String)
    (readRes : ReadResult) : ResourceData × Option String :=
  let d1 := setId d (asString (dGet gcpDefault d "path"))
  let path := gcpAuthBackendConfigPath d1.id
  match writeRes with
  | some cause =>
    (setId d1 "", some ("error writing GCP Auth config \"" ++ path ++ "\": " ++ cause))
  | none => gcpAuthConfigureRead d1 readRes

/-- `gcpAuthConfigureDelete`: writes an empty payload to reset the config;
(the Go code formats the cause with %q, hence the quotes). -/
def gcpAuthConfigureDelete (d : ResourceData) (writeRes : Option String) :
    ResourceData × Option String :=
  let path := gcpAuthBackendConfigPath d.id
  match writeRes with
  | some cause =>
    (d, some ("error resetting GCP Auth config \"" ++ path ++ "\": \"" ++ cause ++ "\""))
  | none => (d, none)

/-- `gcpAuthConfigureExists`: issues a read; on transport error it returns
the judgment `true` together with the error; on success it returns whether
the response was non-nil. -/
def gcpAuthConfigureExists (d : ResourceData) (readRes : ReadResult) :
    Bool × Option String :=
  let path := gcpAuthBackendConfigPath d.id
  match readRes with
  | .error cause =>
    (true, some ("error checking for existence of GCP Auth config \"" ++ path ++ "\": " ++ cause))
  | .ok resp => (resp.isSome, none)

/-- Fuel-driven core of decimal printing: peels least significant digits of
`n` onto the front of `acc`; any fuel above `n` is sufficient. -/
def natToDigitsCore : Nat → Nat → List Char → List Char
  | 0, _, acc => acc
  | fuel + 1, n, acc =>
    let acc' := Char.ofNat (48 + n % 10) :: acc
    if n / 10 = 0 then acc' else natToDigitsCore fuel (n / 10) acc'

/-- Decimal digits of a natural number, most significant first. -/
def natToDigits (n : Nat) : List Char :=
  natToDigitsCore (n + 1) n []

/-- Decimal representation of an integer, as Go's `%d` verb prints it. -/
def intToChars (n : Int) : List Char :=
  if n < 0 then '-' :: natToDigits n.natAbs else natToDigits n.natAbs

/-- Decimal representation of an integer as a string. -/
def decString (n : Int) : String :=
  String.mk (intToChars n)

/-- Modelled from the spec: the `util.ToStringArray` helper (the spec's
"string-array conversion" field codec) is not among the provided sources;
per the spec it converts a list of generic values to the same list of
strings, serialized verbatim as a JSON array of strings. -/
def ToStringArray (xs : List String) : List String := xs

/-- `api.AuthConfigInput`: the config block of an enable-auth request. -/
structure AuthConfigInput where
  DefaultLeaseTTL : String
  MaxLeaseTTL : String
  AuditNonHMACRequestKeys : List String
  AuditNonHMACResponseKeys : List String
  ListingVisibility : String
  PassthroughRequestHeaders : List String
deriving DecidableEq, Repr

/-- `api.EnableAuthOptions`: the remote payload of `authBackendWrite`. -/
structure EnableAuthOptions where
  Type' : String
  Description : String
  Config : AuthConfigInput
  Local : Bool
deriving DecidableEq, Repr

/-- The options payload assembled by `authBackendWrite`: every field is
copied unconditionally from the desired state (there is no `GetOk` guard),
the lease TTLs coerced to duration strings by `fmt.Sprintf("%ds", ·)`. -/
def authBackendWriteOptions (d : ResourceData) : EnableAuthOptions :=
  { Type' := asString (dGet authDefault d "type")
  , Description := asString (dGet authDefault d "description")
  , Config :=
    { DefaultLeaseTTL := decString (asInt (dGet authDefault d "default_lease_ttl_seconds")) ++ "s"
    , MaxLeaseTTL := decString (asInt (dGet authDefault d "max_lease_ttl_seconds")) ++ "s"
    , AuditNonHMACRequestKeys :=
        ToStringArray (asStrList (dGet authDefault d "audit_non_hmac_request_keys"))
    , AuditNonHMACResponseKeys :=
        ToStringArray (asStrList (dGet authDefault d "audit_non_hmac_response_keys"))
    , ListingVisibility := asString (dGet authDefault d "listing_visibility")
    , PassthroughRequestHeaders :=
        ToStringArray (asStrList (dGet authDefault d "passthrough_request_headers")) }
  , Local := asBool (dGet authDefault d "local") }

/-- Config block of one entry of `client.Sys().ListAuth()`. -/
structure AuthConfigOutput where
  DefaultLeaseTTL : Int
  MaxLeaseTTL : Int
  ListingVisibility : String
deriving DecidableEq, Repr

/-- `api.AuthMount`: one entry of the listing returned by `ListAuth`. -/
structure AuthMount where
  Type' : String
  Description : String
  Accessor : String
  Config : AuthConfigOutput
  Local : Bool
deriving DecidableEq, Repr

/-- Result of `client.Sys().ListAuth()`: a mapping from mount path (with its
trailing separator) to mount summary. -/
abbrev ListAuthResult := Except String (List (String × AuthMount))

/-- The state update of `authBackendRead` when the listing contains the
target entry: each field of the entry is copied into local state (note the
`path` attribute receives the listing key, trailing separator included). -/
def authReadApply (d : ResourceData) (path : String) (auth : AuthMount) : ResourceData :=
  setAttr (setAttr (setAttr (setAttr (setAttr (setAttr (setAttr (setAttr d
    "type" (.str auth.Type'))
    "path" (.str path))
    "description" (.str auth.Description))
    "default_lease_ttl_seconds" (.intv auth.Config.DefaultLeaseTTL))
    "max_lease_ttl_seconds" (.intv auth.Config.MaxLeaseTTL))
    "listing_visibility" (.str auth.Config.ListingVisibility))
    "local" (.boolv auth.Local))
    "accessor" (.str auth.Accessor)

/-- `authBackendRead`: lists the auth mounts and scans for the entry whose
key is the identity with a trailing separator appended.  A transport error
is surfaced (with the cause, without the path) leaving state untouched; a
matching entry is copied into state; no match clears the identity. -/
def authBackendRead (d : ResourceData) (listRes : ListAuthResult) :
    ResourceData × Option String :=
  let targetPath := d.id ++ "/"
  match listRes with
  | .error cause => (d, some ("error reading from Vault: " ++ cause))
  | .ok auths =>
    match auths.find? (fun pa => pa.1 == targetPath) with
    | some (path, auth) => (authReadApply d path auth, none)
    | none => (setId d "", none)

/-- `authBackendWrite`: assembles the enable-auth options, defaults the path
to the mount type, and issues the enable call (outcome in `writeRes`).  On
failure the error carries only the cause and the state is untouched (the
identity is set only after a successful write); on success the identity is
set and the operation finishes with a read-back. -/
def authBackendWrite (d : ResourceData) (writeRes : Option String)
    (listRes : ListAuthResult) : ResourceData × Option String :=
  let mountType := asString (dGet authDefault d "type")
  let path0 := asString (dGet authDefault d "path")
  let _options := authBackendWriteOptions d
  let path := if path0 = "" then mountType else path0
  match writeRes with
  | some cause => (d, some ("error writing to Vault: " ++ cause))
  | none => authBackendRead (setId d path) listRes

/-- `authBackendDelete`: disables the auth mount at the identity. -/
def authBackendDelete (d : ResourceData) (disableRes : Option String) :
    ResourceData × Option String :=
  match disableRes with
  | some cause => (d, some ("error disabling auth from Vault: " ++ cause))
  | none => (d, none)

/-- Whether `needle` is an initial segment of `hay`. -/
def listIsPre : List Char → List Char → Bool
  | [], _ => true
  | _ :: _, [] => false
  | a :: as, b :: bs => a == b && listIsPre as bs

/-- Whether `needle` occurs contiguously inside `hay`. -/
def listContainsSub : List Char → List Char → Bool
  | [], needle => needle.isEmpty
  | c :: rest, needle => listIsPre needle (c :: rest) || listContainsSub rest needle

/-- Substring containment, used to state what an error message carries. -/
def strContains (hay needle : String) : Bool :=
  listContainsSub hay.data needle.data

theorem attrLookup_mapSet_self (m : List (String × FieldVal)) (k : String) (v : FieldVal) :
    attrLookup (mapSet m k v) k = some v := by
  induction m with
  | nil => simp [mapSet, attrLookup]
  | cons p rest ih =>
    obtain ⟨k0, v0⟩ := p
    by_cases h0 : k0 = k
    · simp [mapSet, h0, attrLookup]
    · simp [mapSet, h0, attrLookup, ih]

theorem attrLookup_mapSet_ne (m : List (String × FieldVal)) (k k' : String) (v : FieldVal)
    (h : ¬ k' = k) : attrLookup (mapSet m k' v) k = attrLookup m k := by
  induction m with
  | nil => simp [mapSet, attrLookup, h]
  | cons p rest ih =>
    obtain ⟨k0, v0⟩ := p
    by_cases h0 : k0 = k'
    · subst h0
      simp [mapSet, attrLookup, h, ih]
    · simp [mapSet, h0, attrLookup, ih]

theorem listIsPre_append (p b : List Char) : listIsPre p (p ++ b) = true := by
  induction p with
  | nil => simp [listIsPre]
  | cons c cs ih => simp [listIsPre, ih]

theorem listContainsSub_append (a p b : List Char) :
    listContainsSub (a ++ (p ++ b)) p = true := by
  induction a with
  | nil =>
    cases p with
    | nil => cases b <;> simp [listContainsSub, listIsPre, List.isEmpty]
    | cons c cs => simpa [listContainsSub] using Or.inl (listIsPre_append (c :: cs) b)
  | cons x xs ih =>
    cases p with
    | nil => simp [listContainsSub, listIsPre]
    | cons c cs =>
      simp only [listContainsSub, List.cons_append, Bool.or_eq_true]
      exact Or.inr (by simpa using ih)

theorem strContains_of_concat (a n b : String) :
    strContains (a ++ n ++ b) n = true := by
  have h : (a ++ n ++ b).data = a.data ++ (n.data ++ b.data) := by
    simp [String.data_append]
  simp [strContains, h, listContainsSub_append]

/-- C1: for every desired state, the payload assembled by the GCP auth config
Write operation maps `iam_metadata` to the literal string "default" when the
`default_iam_metadata` flag is true and to exactly the collection's list of
elements when it is false, regardless of the collection's contents; and
likewise for `gce_metadata` / `default_gce_metadata`. -/
theorem gcp_write_metadata_default_sentinel (d : ResourceData) :
    attrLookup (gcpWritePayload d) "iam_metadata" =
      some (if asBool (dGet gcpDefault d "default_iam_metadata")
        then FieldVal.str "default"
        else FieldVal.strList (asStrList (dGet gcpDefault d "iam_metadata"))) ∧
    attrLookup (gcpWritePayload d) "gce_metadata" =
      some (if asBool (dGet gcpDefault d "default_gce_metadata")
        then FieldVal.str "default"
        else FieldVal.strList (asStrList (dGet gcpDefault d "gce_metadata"))) := by
  simp only [gcpWritePayload]
  constructor <;>
    split_ifs <;>
    simp_all [attrLookup_mapSet_self, attrLookup_mapSet_ne]

/-- A desired state in which both default-metadata flags are explicitly
false and the metadata collections are left unset. -/
def gcpUnsetMetadataExample : ResourceData :=
  { id := ""
  , attrs := [("path", FieldVal.str "gcp"),
              ("default_iam_metadata", FieldVal.boolv false),
              ("default_gce_metadata", FieldVal.boolv false)] }

/-- A desired auth backend state whose optional fields (description, lease
TTLs, ...) are all unset. -/
def authDescUnsetExample : ResourceData :=
  { id := ""
  , attrs := [("type", FieldVal.str "approle"), ("path", FieldVal.str "pki")] }

/-- C2 counterexample: the GCP write payload contains the key `iam_metadata`
(bound to the empty list) even though the `iam_metadata` collection is not
present in the desired state, and the auth backend write options carry a
description and a "0s" default-lease duration even though neither field is
set — so an unset optional field does contribute to the payload. -/
theorem write_payload_unset_field_counterexample :
    attrLookup gcpUnsetMetadataExample.attrs "iam_metadata" = none ∧
    attrLookup (gcpWritePayload gcpUnsetMetadataExample) "iam_metadata" =
      some (FieldVal.strList []) ∧
    attrLookup authDescUnsetExample.attrs "description" = none ∧
    (authBackendWriteOptions authDescUnsetExample).Description = "" ∧
    (authBackendWriteOptions authDescUnsetExample).Config.DefaultLeaseTTL = "0s" := by
  refine ⟨by decide, by decide, by decide, rfl, rfl⟩

/-- C2 amended: the GCP write payload contains the three plain string fields
exactly when they are set and non-empty, while the two metadata keys are
always present; the auth backend write options unconditionally carry every
config field, copied (or duration-coerced) from the desired state even when
unset. -/
theorem write_payload_field_presence (d : ResourceData) :
    (attrLookup (gcpWritePayload d) "credentials" =
      if isZeroVal (dGet gcpDefault d "credentials") = true then none
      else some (FieldVal.str (asString (dGet gcpDefault d "credentials")))) ∧
    (attrLookup (gcpWritePayload d) "iam_alias" =
      if isZeroVal (dGet gcpDefault d "iam_alias") = true then none
      else some (FieldVal.str (asString (dGet gcpDefault d "iam_alias")))) ∧
    (attrLookup (gcpWritePayload d) "gce_alias" =
      if isZeroVal (dGet gcpDefault d "gce_alias") = true then none
      else some (FieldVal.str (asString (dGet gcpDefault d "gce_alias")))) ∧
    (attrLookup (gcpWritePayload d) "iam_metadata").isSome = true ∧
    (attrLookup (gcpWritePayload d) "gce_metadata").isSome = true ∧
    (authBackendWriteOptions d).Description = asString (dGet authDefault d "description") ∧
    (authBackendWriteOptions d).Config.DefaultLeaseTTL =
      decString (asInt (dGet authDefault d "default_lease_ttl_seconds")) ++ "s" := by
  refine ⟨?_, ?_, ?_, ?_, ?_, rfl, rfl⟩ <;>
    · simp only [gcpWritePayload, dGetOk]
      split_ifs <;>
        simp_all [attrLookup_mapSet_self, attrLookup_mapSet_ne, attrLookup]

theorem dropWhile_head_not (p : Char → Bool) (l : List Char) (c : Char)
    (h : (l.dropWhile p).head? = some c) : p c = false := by
  induction l with
  | nil => simp [List.dropWhile] at h
  | cons a as ih =>
    by_cases hp : p a
    · rw [List.dropWhile_cons_of_pos hp] at h
      exact ih h
    · rw [List.dropWhile_cons_of_neg hp] at h
      simp at h
      rw [← h]
      exact Bool.of_not_eq_true hp

theorem dropWhile_isSuffix (p : Char → Bool) (l : List Char) :
    l.dropWhile p <:+ l := by
  induction l with
  | nil => simp [List.dropWhile]
  | cons a as ih =>
    by_cases hp : p a
    · rw [List.dropWhile_cons_of_pos hp]
      exact ih.trans (List.suffix_cons a as)
    · rw [List.dropWhile_cons_of_neg hp]

theorem isPrefix_head? {t l : List Char} (h : t <+: l) (hne : t ≠ []) :
    t.head? = l.head? := by
  obtain ⟨r, rfl⟩ := h
  cases t with
  | nil => cases hne rfl
  | cons a as => simp

theorem rtrimSlashes_isPrefix (l : List Char) : rtrimSlashes l <+: l := by
  have h := dropWhile_isSuffix (fun c => c == '/') l.reverse
  have h2 := (@List.reverse_prefix Char (l.reverse.dropWhile (fun c => c == '/'))
    l.reverse).mpr h
  rw [rtrimSlashes]
  simpa using h2

theorem trimSlashes_append_slash (s : List Char) :
    trimSlashes (s ++ ['/']) = trimSlashes s := by
  rw [trimSlashes, trimSlashes, ltrimSlashes, ltrimSlashes, List.dropWhile_append]
  by_cases h : (s.dropWhile (fun c => c == '/')).isEmpty
  · rw [if_pos h]
    rw [List.isEmpty_iff] at h
    rw [h]
    simp [List.dropWhile, rtrimSlashes]
  · rw [if_neg h]
    rw [rtrimSlashes, rtrimSlashes]
    simp [List.dropWhile]

/-- C7: the GCP config path builder is invariant under appending a trailing
separator, its result is `"auth/" ++ trimmed path ++ "/config"`, and the
trimmed segment neither starts nor ends with a separator. -/
theorem gcp_config_path_trailing_sep (p : String) :
    gcpAuthBackendConfigPath p = gcpAuthBackendConfigPath (p ++ "/") ∧
    gcpAuthBackendConfigPath p = "auth/" ++ String.mk (trimSlashes p.data) ++ "/config" ∧
    (trimSlashes p.data).head? ≠ some '/' ∧
    (trimSlashes p.data).getLast? ≠ some '/' := by
  refine ⟨?_, rfl, ?_, ?_⟩
  · have hd : (p ++ "/").data = p.data ++ ['/'] := by
      simp [String.data_append]
    rw [gcpAuthBackendConfigPath, gcpAuthBackendConfigPath, hd, trimSlashes_append_slash]
  · intro h
    rcases hne : trimSlashes p.data with _ | ⟨c, cs⟩
    · rw [hne] at h
      simp at h
    · have hpre := rtrimSlashes_isPrefix (ltrimSlashes p.data)
      rw [← trimSlashes] at hpre
      have hh := isPrefix_head? hpre (by rw [hne]; simp)
      rw [h, ltrimSlashes] at hh
      have := dropWhile_head_not (fun c => c == '/') p.data '/' hh.symm
      simp at this
  · intro h
    rw [trimSlashes, rtrimSlashes, List.getLast?_reverse] at h
    have := dropWhile_head_not (fun c => c == '/') (ltrimSlashes p.data).reverse '/' h
    simp at this

/-- A sample auth mount listing entry. -/
def sampleMount : AuthMount :=
  { Type' := "approle"
  , Description := "sample"
  , Accessor := "auth_approle_1234"
  , Config := { DefaultLeaseTTL := 3600, MaxLeaseTTL := 7200, ListingVisibility := "" }
  , Local := false }

/-- C3 counterexample: when the enable-auth call of `authBackendWrite` fails,
the returned error does not contain the remote path ("pki" here): the code
formats only the cause into "error writing to Vault: %s". -/
theorem write_failure_error_counterexample :
    (authBackendWrite authDescUnsetExample (some "boom") (.ok [])).2 =
      some "error writing to Vault: boom" ∧
    asString (dGet authDefault authDescUnsetExample "path") = "pki" ∧
    strContains "error writing to Vault: boom" "pki" = false := by
  exact ⟨rfl, by decide, by decide⟩

/-- C3 amended: on a failed remote write, `gcpAuthConfigureWrite` clears the
identity and returns an error containing the remote path and the cause,
while `authBackendWrite` leaves the state — hence the identity, never set
before the write succeeds — unchanged and returns an error containing the
underlying cause but not, in general, the remote path. -/
theorem write_failure_identity_and_error (d da : ResourceData) (cause : String)
    (r : ReadResult) (lr : ListAuthResult) :
    (gcpAuthConfigureWrite d (some cause) r).1.id = "" ∧
    (gcpAuthConfigureWrite d (some cause) r).2 =
      some ("error writing GCP Auth config \"" ++
        gcpAuthBackendConfigPath (asString (dGet gcpDefault d "path")) ++ "\": " ++ cause) ∧
    strContains ("error writing GCP Auth config \"" ++
        gcpAuthBackendConfigPath (asString (dGet gcpDefault d "path")) ++ "\": " ++ cause)
      (gcpAuthBackendConfigPath (asString (dGet gcpDefault d "path"))) = true ∧
    strContains ("error writing GCP Auth config \"" ++
        gcpAuthBackendConfigPath (asString (dGet gcpDefault d "path")) ++ "\": " ++ cause)
      cause = true ∧
    (authBackendWrite da (some cause) lr).1 = da ∧
    (authBackendWrite da (some cause) lr).2 = some ("error writing to Vault: " ++ cause) := by
  refine ⟨rfl, rfl, ?_, ?_, rfl, rfl⟩
  · have h := strContains_of_concat "error writing GCP Auth config \""
      (gcpAuthBackendConfigPath (asString (dGet gcpDefault d "path"))) ("\": " ++ cause)
    simp only [String.append_assoc] at h ⊢
    exact h
  · have h := strContains_of_concat ("error writing GCP Auth config \"" ++
      gcpAuthBackendConfigPath (asString (dGet gcpDefault d "path")) ++ "\": ") cause ""
    rw [String.append_empty] at h
    simp only [String.append_assoc] at h ⊢
    exact h

/-- C4: a Read that finds no remote object — a nil response for the GCP
config read, no matching entry in the listing for the auth backend read —
sets the identity to the empty string and returns success. -/
theorem read_absent_clears_identity (d da : ResourceData) (l : List (String × AuthMount))
    (h : l.find? (fun pa => pa.1 == da.id ++ "/") = none) :
    (gcpAuthConfigureRead d (.ok none)).1.id = "" ∧
    (gcpAuthConfigureRead d (.ok none)).2 = none ∧
    (authBackendRead da (.ok l)).1.id = "" ∧
    (authBackendRead da (.ok l)).2 = none := by
  refine ⟨rfl, rfl, ?_, ?_⟩ <;> simp [authBackendRead, h, setId]

theorem read_absent_clears_identity_witness :
    ([("approle/", sampleMount)].find?
      (fun pa => pa.1 == ({ id := "pki", attrs := [] } : ResourceData).id ++ "/") = none) ∧
    (authBackendRead { id := "pki", attrs := [] } (.ok [("approle/", sampleMount)])).1.id = "" ∧
    (gcpAuthConfigureRead { id := "gcp", attrs := [] } (.ok none)).1.id = "" := by
  have h := read_absent_clears_identity { id := "gcp", attrs := [] }
    { id := "pki", attrs := [] } [("approle/", sampleMount)] (by decide)
  exact ⟨by decide, h.2.2.1, h.1⟩

/-- C5 counterexample: when the listing call of `authBackendRead` fails, the
returned error does not include the path (the identity "pki"): the code
formats only the cause into "error reading from Vault: %s". -/
theorem read_failure_error_counterexample :
    (authBackendRead { id := "pki", attrs := [] } (.error "boom")).1 =
      { id := "pki", attrs := [] } ∧
    (authBackendRead { id := "pki", attrs := [] } (.error "boom")).2 =
      some "error reading from Vault: boom" ∧
    strContains "error reading from Vault: boom" "pki" = false := by
  exact ⟨rfl, rfl, by decide⟩

/-- C5 amended: on a failed remote read both Read operations leave the local
state (identity and all fields) exactly as it was and return an error
containing the underlying cause; the GCP config read error also contains
the remote path, the auth backend read error does not in general. -/
theorem read_failure_state_unchanged (d da : ResourceData) (cause : String) :
    (gcpAuthConfigureRead d (.error cause)).1 = d ∧
    (gcpAuthConfigureRead d (.error cause)).2 =
      some ("error reading GCP Auth config \"" ++
        gcpAuthBackendConfigPath d.id ++ "\": " ++ cause) ∧
    strContains ("error reading GCP Auth config \"" ++
        gcpAuthBackendConfigPath d.id ++ "\": " ++ cause)
      (gcpAuthBackendConfigPath d.id) = true ∧
    strContains ("error reading GCP Auth config \"" ++
        gcpAuthBackendConfigPath d.id ++ "\": " ++ cause) cause = true ∧
    (authBackendRead da (.error cause)).1 = da ∧
    (authBackendRead da (.error cause)).2 = some ("error reading from Vault: " ++ cause) ∧
    strContains ("error reading from Vault: " ++ cause) cause = true := by
  refine ⟨rfl, rfl, ?_, ?_, rfl, rfl, ?_⟩
  · have h := strContains_of_concat "error reading GCP Auth config \""
      (gcpAuthBackendConfigPath d.id) ("\": " ++ cause)
    simp only [String.append_assoc] at h ⊢
    exact h
  · have h := strContains_of_concat ("error reading GCP Auth config \"" ++
      gcpAuthBackendConfigPath d.id ++ "\": ") cause ""
    rw [String.append_empty] at h
    simp only [String.append_assoc] at h ⊢
    exact h
  · have h := strContains_of_concat "error reading from Vault: " cause ""
    rw [String.append_empty] at h
    exact h

/-- C6: the Exists operation reports presence as "response non-nil" when the
remote read succeeds, and when the read itself fails it returns the
judgment `true` together with an error, so a transport failure is never
reported as absence. -/
theorem exists_error_assumes_present (d : ResourceData)
    (resp : Option (List (String × FieldVal))) (cause : String) :
    (gcpAuthConfigureExists d (.ok resp)).1 = resp.isSome ∧
    (gcpAuthConfigureExists d (.ok resp)).2 = none ∧
    (gcpAuthConfigureExists d (.error cause)).1 = true ∧
    (gcpAuthConfigureExists d (.error cause)).2 =
      some ("error checking for existence of GCP Auth config \"" ++
        gcpAuthBackendConfigPath d.id ++ "\": " ++ cause) := by
  exact ⟨rfl, rfl, rfl, rfl⟩

theorem find?_eq_of_mem_nodup (l : List (String × AuthMount)) (k : String) (a : AuthMount)
    (hnd : (l.map Prod.fst).Nodup) (hmem : (k, a) ∈ l) :
    l.find? (fun pa => pa.1 == k) = some (k, a) := by
  induction l with
  | nil => simp at hmem
  | cons p rest ih =>
    rcases List.mem_cons.mp hmem with h | h
    · subst h
      simp [List.find?]
    · have hk : k ∈ rest.map Prod.fst := List.mem_map.mpr ⟨(k, a), h, rfl⟩
      have hne : ¬ p.1 = k := by
        intro he
        rw [List.map_cons, List.nodup_cons] at hnd
        exact hnd.1 (he ▸ hk)
      have ihh := ih (by rw [List.map_cons, List.nodup_cons] at hnd; exact hnd.2) h
      have hfa : ¬ ((fun pa => pa.1 == k) p) = true := by simp [hne]
      rw [List.find?_cons_of_neg rest hfa, ihh]

/-- C9: the auth backend Read scans the listing for the entry whose key is
the identity with a trailing separator appended; if such an entry is present
(keys of a listing are unique) its fields are copied into local state with
success, and if no entry matches the identity is cleared with success. -/
theorem auth_read_scans_listing (d : ResourceData) (l : List (String × AuthMount))
    (hnd : (l.map Prod.fst).Nodup) :
    (∀ a, (d.id ++ "/", a) ∈ l →
      authBackendRead d (.ok l) = (authReadApply d (d.id ++ "/") a, none)) ∧
    ((∀ a, (d.id ++ "/", a) ∉ l) →
      authBackendRead d (.ok l) = (setId d "", none)) := by
  constructor
  · intro a hmem
    have hf := find?_eq_of_mem_nodup l (d.id ++ "/") a hnd hmem
    simp [authBackendRead, hf]
  · intro hno
    have hf : l.find? (fun pa => pa.1 == d.id ++ "/") = none := by
      rw [List.find?_eq_none]
      rintro ⟨k, a⟩ hmem hbeq
      rw [beq_iff_eq] at hbeq
      exact hno a (by rw [← hbeq]; exact hmem)
    simp [authBackendRead, hf]

theorem auth_read_scans_listing_witness :
    authBackendRead { id := "approle", attrs := [] }
        (.ok [("pki/", sampleMount), ("approle/", sampleMount)]) =
      (authReadApply { id := "approle", attrs := [] } ("approle" ++ "/") sampleMount, none) := by
  have h := auth_read_scans_listing { id := "approle", attrs := [] }
    [("pki/", sampleMount), ("approle/", sampleMount)] (by decide)
  exact h.1 sampleMount (by decide)

/-! ### A model of Go `encoding/json` as used by the credential codec

`NormalizeGCPCredentials` unmarshals the credential string into a
`map[string]interface{}` and re-marshals it.  The model below embeds the
relevant fragment of `encoding/json`: values are null, booleans, numbers,
strings, arrays and objects; unmarshaling parses (accepting the usual
whitespace, escapes and `\uXXXX` forms, rejecting trailing data and a
non-object/non-null top level); marshaling prints compactly with object
keys sorted (a Go map is unordered, so the sorted association list is the
canonical representation) and with Go's escaping conventions (control
characters, `<`, `>`, `&`, U+2028/U+2029 escaped).  Two deliberate model
restrictions: numbers cover integer literals only (Go parses all numbers
into IEEE float64, which is out of scope here), and a `\uXXXX` escape
denoting a lone surrogate is rejected rather than replaced by U+FFFD. -/

/-- The double quote character. -/
def dq : Char := Char.ofNat 34

/-- The backslash character. -/
def bsl : Char := Char.ofNat 92

/-- The opening curly bracket. -/
def lbr : Char := Char.ofNat 123

/-- The closing curly bracket. -/
def rbr : Char := Char.ofNat 125

mutual
/-- A JSON value as Go's `interface{}` decoding represents it. -/
inductive Json where
  | null
  | boolv (b : Bool)
  | num (n : Int)
  | str (s : List Char)
  | arr (xs : JsonList)
  | obj (fs : JsonFields)
/-- The elements of a JSON array. -/
inductive JsonList where
  | nil
  | cons (x : Json) (xs : JsonList)
/-- The fields of a JSON object, kept sorted by key (the canonical
representation of Go's unordered `map[string]interface{}`). -/
inductive JsonFields where
  | nil
  | cons (k : List Char) (v : Json) (fs : JsonFields)
end

/-- Lexicographic comparison of strings by code point, the order in which
Go's `json.Marshal` sorts map keys. -/
def cmpChars : List Char → List Char → Ordering
  | [], [] => .eq
  | [], _ :: _ => .lt
  | _ :: _, [] => .gt
  | a :: as, b :: bs =>
    if a < b then .lt else if b < a then .gt else cmpChars as bs

/-- Insert a field into a key-sorted field list, overwriting on an equal
key: models assignment into the decoding's `map[string]interface{}`. -/
def objInsert (k : List Char) (v : Json) : JsonFields → JsonFields
  | .nil => .cons k v .nil
  | .cons k2 v2 rest =>
    match cmpChars k k2 with
    | .lt => .cons k v (.cons k2 v2 rest)
    | .eq => .cons k v rest
    | .gt => .cons k2 v2 (objInsert k v rest)

/-- Append an element at the end of an array. -/
def jsonListAppend : JsonList → Json → JsonList
  | .nil, v => .cons v .nil
  | .cons x xs, v => .cons x (jsonListAppend xs v)

/-- Concatenation of arrays. -/
def jsonListConcat : JsonList → JsonList → JsonList
  | .nil, l => l
  | .cons x xs, l => .cons x (jsonListConcat xs l)

/-- Concatenation of field lists. -/
def fieldsConcat : JsonFields → JsonFields → JsonFields
  | .nil, l => l
  | .cons k v fs, l => .cons k v (fieldsConcat fs l)

/-- JSON whitespace. -/
def isWsCh (c : Char) : Bool :=
  c.toNat = 32 || c.toNat = 9 || c.toNat = 10 || c.toNat = 13

/-- Skip insignificant whitespace. -/
def skipWs (s : List Char) : List Char :=
  s.dropWhile isWsCh

/-- ASCII decimal digit. -/
def isDigitCh (c : Char) : Bool :=
  48 ≤ c.toNat && c.toNat ≤ 57

/-- Value of a hexadecimal digit, either case. -/
def hexVal (c : Char) : Option Nat :=
  if 48 ≤ c.toNat ∧ c.toNat ≤ 57 then some (c.toNat - 48)
  else if 97 ≤ c.toNat ∧ c.toNat ≤ 102 then some (c.toNat - 87)
  else if 65 ≤ c.toNat ∧ c.toNat ≤ 70 then some (c.toNat - 55)
  else none

/-- Resolution of a single-character escape sequence. -/
def unescChar (c : Char) : Option Char :=
  if c = dq then some dq
  else if c = bsl then some bsl
  else if c = '/' then some '/'
  else if c = 'b' then some (Char.ofNat 8)
  else if c = 'f' then some (Char.ofNat 12)
  else if c = 'n' then some (Char.ofNat 10)
  else if c = 'r' then some (Char.ofNat 13)
  else if c = 't' then some (Char.ofNat 9)
  else none

/-- Parse the body of a JSON string after the opening quote, returning the
decoded contents and the remaining input after the closing quote. -/
def parseStringBody : List Char → Option (List Char × List Char)
  | [] => none
  | c :: rest =>
    if c = dq then some ([], rest)
    else if c = bsl then
      match rest with
      | [] => none
      | e :: rest2 =>
        if e = 'u' then
          match rest2 with
          | h1 :: h2 :: h3 :: h4 :: rest3 =>
            match hexVal h1, hexVal h2, hexVal h3, hexVal h4 with
            | some a, some b, some c2, some d2 =>
              let n := ((a * 16 + b) * 16 + c2) * 16 + d2
              if n < 55296 ∨ (57344 ≤ n ∧ n < 1114112) then
                match parseStringBody rest3 with
                | some (s, r) => some (Char.ofNat n :: s, r)
                | none => none
              else none
            | _, _, _, _ => none
          | _ => none
        else
          match unescChar e with
          | some u =>
            match parseStringBody rest2 with
            | some (s, r) => some (u :: s, r)
            | none => none
          | none => none
    else if c.toNat < 32 then none
    else
      match parseStringBody rest with
      | some (s, r) => some (c :: s, r)
      | none => none

/-- Longest digit run at the front of the input. -/
def takeDigits : List Char → List Char × List Char
  | [] => ([], [])
  | c :: rest =>
    if isDigitCh c then (c :: (takeDigits rest).1, (takeDigits rest).2)
    else ([], c :: rest)

/-- Accumulating decimal value of a digit run. -/
def digitsToNat (acc : Nat) (ds : List Char) : Nat :=
  ds.foldl (fun a c => a * 10 + (c.toNat - 48)) acc

/-- Parse an unsigned JSON integer literal (no redundant leading zero). -/
def parseNat : List Char → Option (Nat × List Char)
  | [] => none
  | c :: rest =>
    if c = '0' then
      match rest with
      | d :: _ => if isDigitCh d then none else some (0, rest)
      | [] => some (0, [])
    else if isDigitCh c then
      some (digitsToNat (c.toNat - 48) (takeDigits rest).1, (takeDigits rest).2)
    else none

/-- Whether the input after an integer literal continues with neither a
fraction nor an exponent (the model covers integer numbers only). -/
def numTailOk : List Char → Bool
  | [] => true
  | c :: _ => !(c = '.' || c = 'e' || c = 'E')

/-- Parse a JSON integer literal with its optional sign. -/
def parseNumber : List Char → Option (Int × List Char)
  | [] => none
  | c :: rest =>
    if c = '-' then
      match parseNat rest with
      | some (n, r) => if numTailOk r then some (-(n : Int), r) else none
      | none => none
    else
      match parseNat (c :: rest) with
      | some (n, r) => if numTailOk r then some ((n : Int), r) else none
      | none => none

mutual
/-- Parse one JSON value.  The fuel only bounds recursion depth: it
decreases at least once per consumed input character, so the top-level
entry point's fuel of twice the input length is never the reason a
well-formed document fails to parse. -/
def parseValue : Nat → List Char → Option (Json × List Char)
  | 0, _ => none
  | fuel + 1, s =>
    match s with
    | [] => none
    | c :: rest =>
      if c = 'n' then
        match rest with
        | c1 :: c2 :: c3 :: r =>
          if c1 = 'u' ∧ c2 = 'l' ∧ c3 = 'l' then some (.null, r) else none
        | _ => none
      else if c = 't' then
        match rest with
        | c1 :: c2 :: c3 :: r =>
          if c1 = 'r' ∧ c2 = 'u' ∧ c3 = 'e' then some (.boolv true, r) else none
        | _ => none
      else if c = 'f' then
        match rest with
        | c1 :: c2 :: c3 :: c4 :: r =>
          if c1 = 'a' ∧ c2 = 'l' ∧ c3 = 's' ∧ c4 = 'e' then some (.boolv false, r) else none
        | _ => none
      else if c = dq then
        match parseStringBody rest with
        | some (cs, r) => some (.str cs, r)
        | none => none
      else if c = '[' then
        match skipWs rest with
        | c2 :: r2 =>
          if c2 = ']' then some (.arr .nil, r2)
          else parseArrElems fuel (c2 :: r2) .nil
        | [] => none
      else if c = lbr then
        match skipWs rest with
        | c2 :: r2 =>
          if c2 = rbr then some (.obj .nil, r2)
          else parseObjFields fuel (c2 :: r2) .nil
        | [] => none
      else
        match parseNumber (c :: rest) with
        | some (n, r) => some (.num n, r)
        | none => none

/-- Parse the elements of a non-empty array, the already-parsed elements
accumulated in order in `acc`. -/
def parseArrElems : Nat → List Char → JsonList → Option (Json × List Char)
  | 0, _, _ => none
  | fuel + 1, s, acc =>
    match parseValue fuel s with
    | some (v, r) =>
      match skipWs r with
      | c :: r2 =>
        if c = ',' then parseArrElems fuel (skipWs r2) (jsonListAppend acc v)
        else if c = ']' then some (.arr (jsonListAppend acc v), r2)
        else none
      | [] => none
    | none => none

/-- Parse the fields of a non-empty object, inserting each parsed field
into the sorted accumulator (later duplicate keys overwrite earlier ones,
as in Go's map decoding). -/
def parseObjFields : Nat → List Char → JsonFields → Option (Json × List Char)
  | 0, _, _ => none
  | fuel + 1, s, acc =>
    match s with
    | [] => none
    | c :: rest =>
      if c = dq then
        match parseStringBody rest with
        | some (k, r) =>
          match skipWs r with
          | c2 :: r2 =>
            if c2 = ':' then
              match parseValue fuel (skipWs r2) with
              | some (v, r3) =>
                match skipWs r3 with
                | c3 :: r4 =>
                  if c3 = ',' then parseObjFields fuel (skipWs r4) (objInsert k v acc)
                  else if c3 = rbr then some (.obj (objInsert k v acc), r4)
                  else none
                | [] => none
              | none => none
            else none
          | [] => none
        | none => none
      else none
end

/-- Go `json.Unmarshal` of a credential string into a
`map[string]interface{}`: parse one value surrounded only by whitespace and
require the top level to be an object (or the JSON literal `null`, which Go
decodes into a nil map). -/
def parseTop (s : String) : Option Json :=
  match parseValue (2 * s.data.length + 2) (skipWs s.data) with
  | some (v, r) =>
    if skipWs r = [] then
      match v with
      | .obj _ => some v
      | .null => some v
      | _ => none
    else none
  | none => none

/-- Hexadecimal digit character (lowercase, as Go prints). -/
def hexDigitCh (n : Nat) : Char :=
  if n < 10 then Char.ofNat (48 + n) else Char.ofNat (87 + n)

/-- Go `json.Marshal` escaping of one string character: quote, backslash,
newline/return/tab by short escapes, other control characters by `\u00XX`,
the HTML-sensitive `<`, `>`, `&` and the line separators U+2028/U+2029 by
their `\uXXXX` forms, everything else verbatim. -/
def escChar (c : Char) : List Char :=
  if c = dq then [bsl, dq]
  else if c = bsl then [bsl, bsl]
  else if c.toNat = 10 then [bsl, 'n']
  else if c.toNat = 13 then [bsl, 'r']
  else if c.toNat = 9 then [bsl, 't']
  else if c.toNat < 32 then
    [bsl, 'u', '0', '0', hexDigitCh (c.toNat / 16), hexDigitCh (c.toNat % 16)]
  else if c = '<' then [bsl, 'u', '0', '0', '3', 'c']
  else if c = '>' then [bsl, 'u', '0', '0', '3', 'e']
  else if c = '&' then [bsl, 'u', '0', '0', '2', '6']
  else if c.toNat = 8232 then [bsl, 'u', '2', '0', '2', '8']
  else if c.toNat = 8233 then [bsl, 'u', '2', '0', '2', '9']
  else [c]

/-- Escaping of a whole string body. -/
def escString : List Char → List Char
  | [] => []
  | c :: cs => escChar c ++ escString cs

mutual
/-- Go `json.Marshal` of a decoded value: compact output, object keys in
sorted order (`printJson` receives them already sorted). -/
def printJson : Json → List Char
  | .null => ['n', 'u', 'l', 'l']
  | .boolv true => ['t', 'r', 'u', 'e']
  | .boolv false => ['f', 'a', 'l', 's', 'e']
  | .num n => intToChars n
  | .str s => dq :: escString s ++ [dq]
  | .arr .nil => ['[', ']']
  | .arr (.cons x xs) => '[' :: (printJson x ++ printArrRest xs)
  | .obj .nil => [lbr, rbr]
  | .obj (.cons k v fs) => lbr :: (printField k v ++ printObjRest fs)

/-- The remaining elements of an array, each preceded by a comma, ending
with the closing bracket. -/
def printArrRest : JsonList → List Char
  | .nil => [']']
  | .cons y ys => ',' :: (printJson y ++ printArrRest ys)

/-- One `"key":value` field. -/
def printField (k : List Char) (v : Json) : List Char :=
  dq :: escString k ++ (dq :: ':' :: printJson v)

/-- The remaining fields of an object, each preceded by a comma, ending
with the closing bracket. -/
def printObjRest : JsonFields → List Char
  | .nil => [rbr]
  | .cons k v fs => ',' :: (printField k v ++ printObjRest fs)
end

/-- `NormalizeGCPCredentials`: unmarshal the credentials into a map and
re-marshal them; on an unmarshal error the function logs and returns the
empty string.  (The Go marshal-error branch is unreachable: marshaling a
map that was just unmarshaled cannot fail.) -/
def NormalizeGCPCredentials (credentials : String) : String :=
  match parseTop credentials with
  | none => ""
  | some v => String.mk (printJson v)

/-- `ValidateGCPCredentials`: attempt the unmarshal and report (warnings,
errors); a failed unmarshal yields one error before any network call. -/
def ValidateGCPCredentials (credentials : String) : List String × List String :=
  match parseTop credentials with
  | none => ([], ["invalid JSON credentials"])
  | some _ => ([], [])

mutual
/-- Structural size of a value, used to bound the parsing fuel. -/
def jsize : Json → Nat
  | .null => 1
  | .boolv _ => 1
  | .num _ => 1
  | .str _ => 1
  | .arr xs => 1 + jsizeList xs
  | .obj fs => 1 + jsizeFields fs
/-- Structural size of array elements. -/
def jsizeList : JsonList → Nat
  | .nil => 0
  | .cons x xs => 1 + jsize x + jsizeList xs
/-- Structural size of object fields. -/
def jsizeFields : JsonFields → Nat
  | .nil => 0
  | .cons _ v fs => 1 + jsize v + jsizeFields fs
end

/-- All keys of the field list are strictly greater than `k`. -/
def keyLtAll (k : List Char) : JsonFields → Prop
  | .nil => True
  | .cons k2 _ rest => cmpChars k k2 = .lt ∧ keyLtAll k rest

mutual
/-- Canonical values: every object in the value has its fields strictly
sorted by key.  Exactly the values the parser produces, and the domain on
which the printer inverts the parser. -/
inductive Canon : Json → Prop where
  | null : Canon .null
  | boolv : ∀ b, Canon (.boolv b)
  | num : ∀ n, Canon (.num n)
  | str : ∀ s, Canon (.str s)
  | arr : ∀ xs, CanonList xs → Canon (.arr xs)
  | obj : ∀ fs, CanonFields fs → Canon (.obj fs)
/-- Canonical array elements. -/
inductive CanonList : JsonList → Prop where
  | nil : CanonList .nil
  | cons : ∀ x xs, Canon x → CanonList xs → CanonList (.cons x xs)
/-- Canonical, strictly key-sorted object fields. -/
inductive CanonFields : JsonFields → Prop where
  | nil : CanonFields .nil
  | cons : ∀ k v fs, Canon v → CanonFields fs → keyLtAll k fs →
      CanonFields (.cons k v fs)
end

theorem fieldsInduct (motive : JsonFields → Prop) (h1 : motive .nil)
    (h2 : ∀ k v fs, motive fs → motive (.cons k v fs)) : ∀ fs, motive fs :=
  @JsonFields.rec (fun _ => True) (fun _ => True) motive
    trivial (fun _ => trivial) (fun _ => trivial) (fun _ => trivial)
    (fun _ _ => trivial) (fun _ _ => trivial)
    trivial (fun _ _ _ _ => trivial)
    h1 (fun k v fs _ ih => h2 k v fs ih)

theorem listInduct (motive : JsonList → Prop) (h1 : motive .nil)
    (h2 : ∀ x xs, motive xs → motive (.cons x xs)) : ∀ xs, motive xs :=
  @JsonList.rec (fun _ => True) motive (fun _ => True)
    trivial (fun _ => trivial) (fun _ => trivial) (fun _ => trivial)
    (fun _ _ => trivial) (fun _ _ => trivial)
    h1 (fun x xs _ ih => h2 x xs ih)
    trivial (fun _ _ _ _ _ => trivial)

theorem jsonMutualInduct (m1 : Json → Prop) (m2 : JsonList → Prop) (m3 : JsonFields → Prop)
    (hnull : m1 .null) (hboolv : ∀ b, m1 (.boolv b)) (hnum : ∀ n, m1 (.num n))
    (hstr : ∀ s, m1 (.str s)) (harr : ∀ xs, m2 xs → m1 (.arr xs))
    (hobj : ∀ fs, m3 fs → m1 (.obj fs)) (hnil : m2 .nil)
    (hcons : ∀ x xs, m1 x → m2 xs → m2 (.cons x xs)) (hfnil : m3 .nil)
    (hfcons : ∀ k v fs, m1 v → m3 fs → m3 (.cons k v fs)) :
    (∀ v, m1 v) ∧ (∀ xs, m2 xs) ∧ (∀ fs, m3 fs) :=
  ⟨@Json.rec m1 m2 m3 hnull hboolv hnum hstr harr hobj hnil hcons hfnil hfcons,
   @JsonList.rec m1 m2 m3 hnull hboolv hnum hstr harr hobj hnil hcons hfnil hfcons,
   @JsonFields.rec m1 m2 m3 hnull hboolv hnum hstr harr hobj hnil hcons hfnil hfcons⟩

theorem cmpChars_eq_iff (a : List Char) : ∀ b, cmpChars a b = .eq ↔ a = b := by
  induction a with
  | nil => intro b; cases b <;> simp [cmpChars]
  | cons x xs ih =>
    intro b
    cases b with
    | nil => simp [cmpChars]
    | cons y ys =>
      simp only [cmpChars]
      by_cases h1 : x < y
      · rw [if_pos h1]
        constructor
        · intro hc; cases hc
        · intro he
          injection he with he1 he2
          exact absurd (he1 ▸ h1) (lt_irrefl y)
      · by_cases h2 : y < x
        · rw [if_neg h1, if_pos h2]
          constructor
          · intro hc; cases hc
          · intro he
            injection he with he1 he2
            exact absurd (he1 ▸ h2) (lt_irrefl y)
        · have hxy : x = y := le_antisymm (not_lt.mp h2) (not_lt.mp h1)
          subst hxy
          rw [if_neg h1, if_neg h2, ih ys]
          simp

theorem cmpChars_gt_iff (a : List Char) : ∀ b, cmpChars a b = .gt ↔ cmpChars b a = .lt := by
  induction a with
  | nil => intro b; cases b <;> simp [cmpChars]
  | cons x xs ih =>
    intro b
    cases b with
    | nil => simp [cmpChars]
    | cons y ys =>
      simp only [cmpChars]
      by_cases h1 : x < y
      · have h2 : ¬ y < x := lt_asymm h1
        rw [if_pos h1, if_neg h2, if_pos h1]
        constructor <;> (intro hc; cases hc)
      · by_cases h2 : y < x
        · rw [if_neg h1, if_pos h2, if_pos h2]
          simp
        · rw [if_neg h1, if_neg h2, if_neg h2, if_neg h1, ih ys]

theorem cmpChars_cons_lt_iff (x y : Char) (xs ys : List Char) :
    cmpChars (x :: xs) (y :: ys) = .lt ↔ x < y ∨ (x = y ∧ cmpChars xs ys = .lt) := by
  simp only [cmpChars]
  by_cases h1 : x < y
  · rw [if_pos h1]
    simp [h1]
  · by_cases h2 : y < x
    · rw [if_neg h1, if_pos h2]
      constructor
      · intro hc; cases hc
      · rintro (hc | ⟨hc, _⟩)
        · exact absurd hc h1
        · exact absurd (hc ▸ h2) (lt_irrefl y)
    · have hxy : x = y := le_antisymm (not_lt.mp h2) (not_lt.mp h1)
      subst hxy
      rw [if_neg h1, if_neg h2]
      simp [h1]

theorem cmpChars_lt_trans (a : List Char) :
    ∀ b c, cmpChars a b = .lt → cmpChars b c = .lt → cmpChars a c = .lt := by
  induction a with
  | nil =>
    intro b c hab hbc
    cases b with
    | nil => cases hab
    | cons y ys =>
      cases c with
      | nil => cases hbc
      | cons z zs => simp [cmpChars]
  | cons x xs ih =>
    intro b c hab hbc
    cases b with
    | nil => cases hab
    | cons y ys =>
      cases c with
      | nil => cases hbc
      | cons z zs =>
        rw [cmpChars_cons_lt_iff] at hab hbc ⊢
        rcases hab with h1 | ⟨he1, h1⟩
        · rcases hbc with h2 | ⟨he2, h2⟩
          · exact Or.inl (lt_trans h1 h2)
          · exact Or.inl (he2 ▸ h1)
        · rcases hbc with h2 | ⟨he2, h2⟩
          · exact Or.inl (he1 ▸ h2)
          · exact Or.inr ⟨he1.trans he2, ih ys zs h1 h2⟩

theorem keyLtAll_trans (k k2 : List Char) (hlt : cmpChars k k2 = .lt) :
    ∀ fs, keyLtAll k2 fs → keyLtAll k fs := by
  refine fieldsInduct (fun fs => keyLtAll k2 fs → keyLtAll k fs) ?_ ?_
  · intro _; trivial
  · intro k3 v fs ih h
    exact ⟨cmpChars_lt_trans k k2 k3 hlt h.1, ih h.2⟩

theorem keyLtAll_objInsert (k0 k : List Char) (v : Json)
    (hk : cmpChars k0 k = .lt) :
    ∀ fs, keyLtAll k0 fs → keyLtAll k0 (objInsert k v fs) := by
  refine fieldsInduct (fun fs => keyLtAll k0 fs → keyLtAll k0 (objInsert k v fs)) ?_ ?_
  · intro _
    exact ⟨hk, trivial⟩
  · intro k2 v2 rest ih h
    cases hc : cmpChars k k2 with
    | lt => exact (by simp [objInsert, hc]; exact ⟨hk, h.1, h.2⟩)
    | eq => exact (by simp [objInsert, hc]; exact ⟨hk, h.2⟩)
    | gt => exact (by simp [objInsert, hc]; exact ⟨h.1, ih h.2⟩)

theorem canonFields_objInsert (k : List Char) (v : Json) (hv : Canon v) :
    ∀ fs, CanonFields fs → CanonFields (objInsert k v fs) := by
  refine fieldsInduct (fun fs => CanonFields fs → CanonFields (objInsert k v fs)) ?_ ?_
  · intro _
    exact (by simp [objInsert]; exact .cons k v .nil hv .nil trivial)
  · intro k2 v2 rest ih h
    cases h with
    | cons _ _ _ hv2 hrest hlt2 =>
      cases hc : cmpChars k k2 with
      | lt =>
        simp only [objInsert, hc]
        exact .cons k v _ hv (.cons k2 v2 rest hv2 hrest hlt2)
          ⟨hc, keyLtAll_trans k k2 hc rest hlt2⟩
      | eq =>
        simp only [objInsert, hc]
        have he : k = k2 := (cmpChars_eq_iff k k2).mp hc
        exact .cons k v rest hv hrest (he ▸ hlt2)
      | gt =>
        simp only [objInsert, hc]
        exact .cons k2 v2 _ hv2 (ih hrest)
          (keyLtAll_objInsert k2 k v ((cmpChars_gt_iff k k2).mp hc) rest hlt2)

/-- All keys of the field list are strictly less than `k`. -/
def keysAllLt : JsonFields → List Char → Prop
  | .nil, _ => True
  | .cons k2 _ rest, k => cmpChars k2 k = .lt ∧ keysAllLt rest k

theorem objInsert_append (k : List Char) (v : Json) :
    ∀ fs, keysAllLt fs k → objInsert k v fs = fieldsConcat fs (.cons k v .nil) := by
  refine fieldsInduct (fun fs => keysAllLt fs k → objInsert k v fs = fieldsConcat fs (.cons k v .nil)) ?_ ?_
  · intro _
    simp [objInsert, fieldsConcat]
  · intro k2 v2 rest ih h
    have hgt : cmpChars k k2 = .gt := (cmpChars_gt_iff k k2).mpr h.1
    simp only [objInsert, hgt, fieldsConcat]
    rw [ih h.2]

theorem keysAllLt_concat (k2 k : List Char) (v : Json) (hk : cmpChars k k2 = .lt) :
    ∀ fs, keysAllLt fs k2 → keysAllLt (fieldsConcat fs (.cons k v .nil)) k2 := by
  refine fieldsInduct (fun fs => keysAllLt fs k2 → keysAllLt (fieldsConcat fs (.cons k v .nil)) k2) ?_ ?_
  · intro _
    exact ⟨hk, trivial⟩
  · intro k3 v3 rest ih h
    exact ⟨h.1, ih h.2⟩

theorem fieldsConcat_assoc (c : JsonFields) :
    ∀ a b, fieldsConcat (fieldsConcat a b) c = fieldsConcat a (fieldsConcat b c) := by
  intro a
  refine fieldsInduct (fun a => ∀ b, fieldsConcat (fieldsConcat a b) c = fieldsConcat a (fieldsConcat b c)) ?_ ?_ a
  · intro b
    simp [fieldsConcat]
  · intro k v fs ih b
    simp [fieldsConcat, ih]

theorem jsonListConcat_append (y : Json) (l : JsonList) :
    ∀ acc, jsonListConcat (jsonListAppend acc y) l = jsonListConcat acc (.cons y l) := by
  refine listInduct (fun acc => jsonListConcat (jsonListAppend acc y) l = jsonListConcat acc (.cons y l)) ?_ ?_
  · simp [jsonListAppend, jsonListConcat]
  · intro x xs ih
    simp [jsonListAppend, jsonListConcat, ih]

theorem jsonListAppend_eq_concat (y : Json) :
    ∀ acc, jsonListAppend acc y = jsonListConcat acc (.cons y .nil) := by
  refine listInduct (fun acc => jsonListAppend acc y = jsonListConcat acc (.cons y .nil)) ?_ ?_
  · simp [jsonListAppend, jsonListConcat]
  · intro x xs ih
    simp [jsonListAppend, jsonListConcat, ih]

/-- Reference form of the decimal digits, for reasoning only. -/
def natDigitsRec (n : Nat) : List Char :=
  if n < 10 then [Char.ofNat (48 + n)]
  else natDigitsRec (n / 10) ++ [Char.ofNat (48 + n % 10)]
decreasing_by exact Nat.div_lt_self (by omega) (by omega)

theorem digitCharToNat (m : Nat) (h : m < 10) : (Char.ofNat (48 + m)).toNat = 48 + m := by
  interval_cases m <;> decide

theorem digitCharIsDigit (m : Nat) (h : m < 10) : isDigitCh (Char.ofNat (48 + m)) = true := by
  interval_cases m <;> decide

theorem natToDigitsCore_eq (fuel : Nat) :
    ∀ n acc, n < fuel → natToDigitsCore fuel n acc = natDigitsRec n ++ acc := by
  induction fuel with
  | zero => intro n acc h; omega
  | succ f ih =>
    intro n acc h
    by_cases h0 : n / 10 = 0
    · have h10 : n < 10 := by omega
      have hm : n % 10 = n := Nat.mod_eq_of_lt h10
      simp [natToDigitsCore, h0, natDigitsRec, h10, hm]
    · have h10 : ¬ n < 10 := by omega
      have hlt : n / 10 < f := by
        have := Nat.div_lt_self (by omega : 0 < n) (by omega : 1 < 10)
        omega
      simp only [natToDigitsCore, h0, if_neg h0]
      rw [ih (n / 10) _ hlt]
      have hrec : natDigitsRec n = natDigitsRec (n / 10) ++ [Char.ofNat (48 + n % 10)] := by
        conv_lhs => rw [natDigitsRec]
        rw [if_neg h10]
      rw [hrec, List.append_assoc]
      rfl

theorem natDigitsRec_foldl (n : Nat) :
    ∀ A, List.foldl (fun a c => a * 10 + (c.toNat - 48)) A (natDigitsRec n) =
      A * 10 ^ (natDigitsRec n).length + n := by
  induction n using Nat.strong_induction_on with
  | _ n ih =>
    intro A
    by_cases h10 : n < 10
    · rw [natDigitsRec, if_pos h10]
      simp [digitCharToNat n h10]
    · rw [natDigitsRec, if_neg h10]
      rw [List.foldl_append]
      rw [ih (n / 10) (Nat.div_lt_self (by omega) (by omega)) A]
      have hm : (Char.ofNat (48 + n % 10)).toNat = 48 + n % 10 :=
        digitCharToNat (n % 10) (Nat.mod_lt n (by omega))
      have hd : 10 * (n / 10) + n % 10 = n := Nat.div_add_mod n 10
      simp only [List.foldl_cons, List.foldl_nil, hm, List.length_append,
        List.length_singleton]
      rw [pow_succ]
      ring_nf
      omega

theorem natDigitsRec_all_digits (n : Nat) :
    ∀ c ∈ natDigitsRec n, isDigitCh c = true := by
  induction n using Nat.strong_induction_on with
  | _ n ih =>
    intro c hc
    by_cases h10 : n < 10
    · rw [natDigitsRec, if_pos h10] at hc
      simp at hc
      exact hc ▸ digitCharIsDigit n h10
    · rw [natDigitsRec, if_neg h10] at hc
      rcases List.mem_append.mp hc with h | h
      · exact ih (n / 10) (Nat.div_lt_self (by omega) (by omega)) c h
      · simp at h
        exact h ▸ digitCharIsDigit (n % 10) (Nat.mod_lt n (by omega))

theorem natDigitsRec_head (n : Nat) (h : 1 ≤ n) :
    ∃ c t, natDigitsRec n = c :: t ∧ ¬ c = '0' ∧ isDigitCh c = true := by
  induction n using Nat.strong_induction_on with
  | _ n ih =>
    by_cases h10 : n < 10
    · refine ⟨Char.ofNat (48 + n), [], by rw [natDigitsRec, if_pos h10], ?_, digitCharIsDigit n h10⟩
      intro hc
      have := congrArg Char.toNat hc
      rw [digitCharToNat n h10] at this
      have h48 : ('0' : Char).toNat = 48 := by decide
      omega
    · obtain ⟨c, t, heq, hc0, hcd⟩ := ih (n / 10) (Nat.div_lt_self (by omega) (by omega)) (by omega)
      refine ⟨c, t ++ [Char.ofNat (48 + n % 10)], ?_, hc0, hcd⟩
      rw [natDigitsRec, if_neg h10, heq]
      simp

/-- The input does not continue with a digit: where the maximal-munch digit
scan stops. -/
def headDigitFree : List Char → Prop
  | [] => True
  | c :: _ => isDigitCh c = false

theorem takeDigits_append (r : List Char) (hr : headDigitFree r) :
    ∀ ds, (∀ c ∈ ds, isDigitCh c = true) → takeDigits (ds ++ r) = (ds, r) := by
  intro ds
  induction ds with
  | nil =>
    intro _
    cases r with
    | nil => rfl
    | cons c rest =>
      simp only [headDigitFree] at hr
      simp [takeDigits, hr]
  | cons d ds ih =>
    intro hall
    have hd : isDigitCh d = true := hall d (by simp)
    have ihh := ih (fun c hc => hall c (by simp [hc]))
    simp [takeDigits, hd, ihh]

theorem parseNat_natToDigits (n : Nat) (r : List Char) (hr : headDigitFree r) :
    parseNat (natToDigits n ++ r) = some (n, r) := by
  have hnd : natToDigits n = natDigitsRec n := by
    rw [natToDigits, natToDigitsCore_eq (n + 1) n [] (by omega), List.append_nil]
  by_cases h0 : n = 0
  · subst h0
    have : natDigitsRec 0 = ['0'] := by rw [natDigitsRec]; decide
    rw [hnd, this]
    cases r with
    | nil => rfl
    | cons c rest =>
      simp only [headDigitFree] at hr
      simp [parseNat, hr]
  · obtain ⟨c, t, heq, hc0, hcd⟩ := natDigitsRec_head n (by omega)
    rw [hnd, heq]
    have hcm : ¬ c = '0' := hc0
    have htd : takeDigits (t ++ r) = (t, r) := by
      refine takeDigits_append r hr t ?_
      intro x hx
      exact natDigitsRec_all_digits n x (by rw [heq]; simp [hx])
    simp only [List.cons_append, parseNat, if_neg hcm, hcd, if_pos rfl, htd]
    have hv : List.foldl (fun a c => a * 10 + (c.toNat - 48)) 0 (natDigitsRec n) = n := by
      rw [natDigitsRec_foldl n 0]
      omega
    rw [heq] at hv
    simp only [List.foldl_cons] at hv
    simp only [digitsToNat]
    rw [Nat.zero_mul, Nat.zero_add] at hv
    rw [hv]
    simp

/-- The input continues with nothing that extends a number literal. -/
def noNumCont : List Char → Prop
  | [] => True
  | c :: _ => isDigitCh c = false ∧ ¬ c = '.' ∧ ¬ c = 'e' ∧ ¬ c = 'E'

theorem numTailOk_of_noNumCont (r : List Char) (h : noNumCont r) : numTailOk r = true := by
  cases r with
  | nil => rfl
  | cons c rest =>
    obtain ⟨_, h1, h2, h3⟩ := h
    simp [numTailOk, h1, h2, h3]

theorem headDigitFree_of_noNumCont (r : List Char) (h : noNumCont r) : headDigitFree r := by
  cases r with
  | nil => trivial
  | cons c rest => exact h.1

theorem digit_head_shape (n : Nat) :
    ∃ c t, natToDigits n = c :: t ∧ isDigitCh c = true := by
  have hnd : natToDigits n = natDigitsRec n := by
    rw [natToDigits, natToDigitsCore_eq (n + 1) n [] (by omega), List.append_nil]
  by_cases h0 : n = 0
  · subst h0
    refine ⟨'0', [], ?_, by decide⟩
    rw [hnd, natDigitsRec]
    decide
  · obtain ⟨c, t, heq, _, hcd⟩ := natDigitsRec_head n (by omega)
    exact ⟨c, t, hnd ▸ heq, hcd⟩

theorem parseNumber_intToChars (n : Int) (r : List Char) (h : noNumCont r) :
    parseNumber (intToChars n ++ r) = some (n, r) := by
  have htail := numTailOk_of_noNumCont r h
  have hfree := headDigitFree_of_noNumCont r h
  by_cases hneg : n < 0
  · rw [intToChars, if_pos hneg]
    simp only [List.cons_append, parseNumber, if_pos rfl]
    rw [parseNat_natToDigits n.natAbs r hfree]
    simp only [htail, if_pos rfl]
    have : -((n.natAbs : Nat) : Int) = n := by omega
    rw [this]
    simp
  · rw [intToChars, if_neg hneg]
    obtain ⟨c, t, heq, hcd⟩ := digit_head_shape n.natAbs
    rw [heq]
    have hcm : ¬ c = '-' := by
      intro hc
      rw [hc] at hcd
      exact absurd hcd (by decide)
    simp only [List.cons_append, parseNumber, if_neg hcm]
    rw [← List.cons_append, ← heq, parseNat_natToDigits n.natAbs r hfree]
    simp only [htail, if_pos rfl]
    have : ((n.natAbs : Nat) : Int) = n := by omega
    rw [this]
    simp

theorem hexVal_hexDigitCh (m : Nat) (h : m < 16) : hexVal (hexDigitCh m) = some m := by
  interval_cases m <;> decide

theorem psb_two (e u : Char) (hne : ¬ e = 'u') (hu : unescChar e = some u)
    (t s r : List Char) (h : parseStringBody t = some (s, r)) :
    parseStringBody (bsl :: e :: t) = some (u :: s, r) := by
  rw [parseStringBody.eq_def]
  simp [hne, hu, h, show ¬ bsl = dq by decide]

theorem psb_hex (h1 h2 h3 h4 : Char) (a b c2 d2 : Nat)
    (ha : hexVal h1 = some a) (hb : hexVal h2 = some b) (hc : hexVal h3 = some c2)
    (hd : hexVal h4 = some d2)
    (hval : ((a * 16 + b) * 16 + c2) * 16 + d2 < 55296 ∨
      (57344 ≤ ((a * 16 + b) * 16 + c2) * 16 + d2 ∧
        ((a * 16 + b) * 16 + c2) * 16 + d2 < 1114112))
    (t s r : List Char) (h : parseStringBody t = some (s, r)) :
    parseStringBody (bsl :: 'u' :: h1 :: h2 :: h3 :: h4 :: t) =
      some (Char.ofNat (((a * 16 + b) * 16 + c2) * 16 + d2) :: s, r) := by
  rw [parseStringBody.eq_def]
  simp [ha, hb, hc, hd, hval, h, show ¬ bsl = dq by decide]

theorem psb_plain (c : Char) (hdq : ¬ c = dq) (hbs : ¬ c = bsl) (hctl : ¬ c.toNat < 32)
    (t s r : List Char) (h : parseStringBody t = some (s, r)) :
    parseStringBody (c :: t) = some (c :: s, r) := by
  rw [parseStringBody.eq_def]
  simp [hdq, hbs, hctl, h]

theorem parseStringBody_escChar (c : Char) (t s r : List Char)
    (h : parseStringBody t = some (s, r)) :
    parseStringBody (escChar c ++ t) = some (c :: s, r) := by
  by_cases h1 : c = dq
  · subst h1
    rw [show escChar dq = [bsl, dq] from by decide]
    exact psb_two dq dq (by decide) (by decide) t s r h
  by_cases h2 : c = bsl
  · subst h2
    rw [show escChar bsl = [bsl, bsl] from by decide]
    exact psb_two bsl bsl (by decide) (by decide) t s r h
  by_cases h3 : c.toNat = 10
  · have hc : c = Char.ofNat 10 := by rw [← Char.ofNat_toNat c, h3]
    subst hc
    rw [show escChar (Char.ofNat 10) = [bsl, 'n'] from by decide]
    exact psb_two 'n' (Char.ofNat 10) (by decide) (by decide) t s r h
  by_cases h4 : c.toNat = 13
  · have hc : c = Char.ofNat 13 := by rw [← Char.ofNat_toNat c, h4]
    subst hc
    rw [show escChar (Char.ofNat 13) = [bsl, 'r'] from by decide]
    exact psb_two 'r' (Char.ofNat 13) (by decide) (by decide) t s r h
  by_cases h5 : c.toNat = 9
  · have hc : c = Char.ofNat 9 := by rw [← Char.ofNat_toNat c, h5]
    subst hc
    rw [show escChar (Char.ofNat 9) = [bsl, 't'] from by decide]
    exact psb_two 't' (Char.ofNat 9) (by decide) (by decide) t s r h
  by_cases h6 : c.toNat < 32
  · have he : escChar c =
        [bsl, 'u', '0', '0', hexDigitCh (c.toNat / 16), hexDigitCh (c.toNat % 16)] := by
      rw [escChar, if_neg h1, if_neg h2, if_neg h3, if_neg h4, if_neg h5, if_pos h6]
    rw [he]
    have hx := psb_hex '0' '0' (hexDigitCh (c.toNat / 16)) (hexDigitCh (c.toNat % 16))
      0 0 (c.toNat / 16) (c.toNat % 16) (by decide) (by decide)
      (hexVal_hexDigitCh _ (by omega)) (hexVal_hexDigitCh _ (by omega))
      (Or.inl (by omega)) t s r h
    have hn : ((0 * 16 + 0) * 16 + c.toNat / 16) * 16 + c.toNat % 16 = c.toNat := by omega
    rw [hn, Char.ofNat_toNat] at hx
    exact hx
  by_cases h7 : c = '<'
  · subst h7
    rw [show escChar '<' = [bsl, 'u', '0', '0', '3', 'c'] from by decide]
    have hx := psb_hex '0' '0' '3' 'c' 0 0 3 12 (by decide) (by decide) (by decide)
      (by decide) (Or.inl (by norm_num)) t s r h
    rw [show Char.ofNat (((0 * 16 + 0) * 16 + 3) * 16 + 12) = '<' from by decide] at hx
    exact hx
  by_cases h8 : c = '>'
  · subst h8
    rw [show escChar '>' = [bsl, 'u', '0', '0', '3', 'e'] from by decide]
    have hx := psb_hex '0' '0' '3' 'e' 0 0 3 14 (by decide) (by decide) (by decide)
      (by decide) (Or.inl (by norm_num)) t s r h
    rw [show Char.ofNat (((0 * 16 + 0) * 16 + 3) * 16 + 14) = '>' from by decide] at hx
    exact hx
  by_cases h9 : c = '&'
  · subst h9
    rw [show escChar '&' = [bsl, 'u', '0', '0', '2', '6'] from by decide]
    have hx := psb_hex '0' '0' '2' '6' 0 0 2 6 (by decide) (by decide) (by decide)
      (by decide) (Or.inl (by norm_num)) t s r h
    rw [show Char.ofNat (((0 * 16 + 0) * 16 + 2) * 16 + 6) = '&' from by decide] at hx
    exact hx
  by_cases h10 : c.toNat = 8232
  · have hc : c = Char.ofNat 8232 := by rw [← Char.ofNat_toNat c, h10]
    subst hc
    rw [show escChar (Char.ofNat 8232) = [bsl, 'u', '2', '0', '2', '8'] from by decide]
    have hx := psb_hex '2' '0' '2' '8' 2 0 2 8 (by decide) (by decide) (by decide)
      (by decide) (Or.inl (by norm_num)) t s r h
    rw [show (((2 * 16 + 0) * 16 + 2) * 16 + 8 : Nat) = 8232 from by norm_num] at hx
    exact hx
  by_cases h11 : c.toNat = 8233
  · have hc : c = Char.ofNat 8233 := by rw [← Char.ofNat_toNat c, h11]
    subst hc
    rw [show escChar (Char.ofNat 8233) = [bsl, 'u', '2', '0', '2', '9'] from by decide]
    have hx := psb_hex '2' '0' '2' '9' 2 0 2 9 (by decide) (by decide) (by decide)
      (by decide) (Or.inl (by norm_num)) t s r h
    rw [show (((2 * 16 + 0) * 16 + 2) * 16 + 9 : Nat) = 8233 from by norm_num] at hx
    exact hx
  · have he : escChar c = [c] := by
      rw [escChar, if_neg h1, if_neg h2, if_neg h3, if_neg h4, if_neg h5, if_neg h6,
        if_neg h7, if_neg h8, if_neg h9, if_neg h10, if_neg h11]
    rw [he]
    exact psb_plain c h1 h2 h6 t s r h

theorem parseStringBody_escString (k : List Char) :
    ∀ rest, parseStringBody (escString k ++ (dq :: rest)) = some (k, rest) := by
  induction k with
  | nil =>
    intro rest
    rw [show escString [] ++ (dq :: rest) = dq :: rest from rfl, parseStringBody.eq_def]
    simp
  | cons c cs ih =>
    intro rest
    have h := parseStringBody_escChar c (escString cs ++ (dq :: rest)) cs rest (ih rest)
    simpa [escString, List.append_assoc] using h

/-- The input starts with a character that is not whitespace. -/
def headNotWs : List Char → Prop
  | [] => False
  | c :: _ => isWsCh c = false

theorem skipWs_of_headNotWs (l : List Char) (h : headNotWs l) : skipWs l = l := by
  cases l with
  | nil => cases h
  | cons c t =>
    rw [skipWs]
    exact List.dropWhile_cons_of_neg (by simp only [headNotWs] at h; simp [h])

theorem digit_not_ws (c : Char) (h : isDigitCh c = true) : isWsCh c = false := by
  simp only [isDigitCh, Bool.and_eq_true, decide_eq_true_eq] at h
  simp only [isWsCh, Bool.or_eq_false_iff, decide_eq_false_iff_not]
  omega

theorem digit_head_intToChars (n : Int) :
    ∃ c t, intToChars n = c :: t ∧ (c = '-' ∨ isDigitCh c = true) := by
  rw [intToChars]
  by_cases h : n < 0
  · exact ⟨'-', natToDigits n.natAbs, by rw [if_pos h], Or.inl rfl⟩
  · obtain ⟨c, t, heq, hcd⟩ := digit_head_shape n.natAbs
    exact ⟨c, t, by rw [if_neg h, heq], Or.inr hcd⟩

theorem printJson_headNotWs (v : Json) : headNotWs (printJson v) := by
  cases v with
  | null => simp [printJson, headNotWs]; decide
  | boolv b => cases b <;> (simp [printJson, headNotWs]; decide)
  | num n =>
    obtain ⟨c, t, heq, hc⟩ := digit_head_intToChars n
    simp only [printJson, heq, headNotWs]
    rcases hc with hc | hc
    · subst hc; decide
    · exact digit_not_ws c hc
  | str s => simp [printJson, headNotWs]; decide
  | arr xs => cases xs <;> (simp [printJson, headNotWs]; decide)
  | obj fs => cases fs <;> (simp [printJson, headNotWs]; decide)

/-- The input continues with a separator (or ends): exactly what may follow
a printed value inside a document. -/
def sepOk : List Char → Prop
  | [] => True
  | c :: _ => c = ',' ∨ c = ']' ∨ c = rbr

theorem noNumCont_of_sepOk (r : List Char) (h : sepOk r) : noNumCont r := by
  cases r with
  | nil => trivial
  | cons c t =>
    rcases h with h | h | h <;> subst h <;>
      exact ⟨by decide, by decide, by decide, by decide⟩

theorem skipWs_of_sepOk (r : List Char) (h : sepOk r) : skipWs r = r := by
  cases r with
  | nil => rfl
  | cons c t =>
    apply skipWs_of_headNotWs
    rcases h with h | h | h <;> subst h
    · exact show isWsCh ',' = false by decide
    · exact show isWsCh ']' = false by decide
    · exact show isWsCh rbr = false by decide

theorem intToChars_len (n : Int) : 1 ≤ (intToChars n).length := by
  obtain ⟨c, t, heq, _⟩ := digit_head_intToChars n
  rw [heq]
  simp

theorem jsize_le_print :
    (∀ v, jsize v ≤ (printJson v).length) ∧
    (∀ xs, jsizeList xs + 1 ≤ (printArrRest xs).length) ∧
    (∀ fs, jsizeFields fs + 1 ≤ (printObjRest fs).length) := by
  refine jsonMutualInduct _ _ _ ?_ ?_ ?_ ?_ ?_ ?_ ?_ ?_ ?_ ?_
  · simp [jsize, printJson]
  · intro b; cases b <;> simp [jsize, printJson]
  · intro n
    simp only [jsize, printJson]
    exact intToChars_len n
  · intro s
    simp [jsize, printJson]
  · intro xs ih
    cases xs with
    | nil => simp [jsize, jsizeList, printJson]
    | cons x xs2 =>
      simp only [jsize, printJson, List.length_cons, List.length_append]
      simp only [jsizeList, printArrRest, List.length_cons, List.length_append] at ih ⊢
      omega
  · intro fs ih
    cases fs with
    | nil => simp [jsize, jsizeFields, printJson]
    | cons k v fs2 =>
      simp only [jsize, printJson, List.length_cons, List.length_append]
      simp only [jsizeFields, printObjRest, List.length_cons, List.length_append] at ih ⊢
      omega
  · simp [jsizeList, printArrRest]
  · intro x xs ih1 ih2
    simp only [jsizeList, printArrRest, List.length_cons, List.length_append]
    omega
  · simp [jsizeFields, printObjRest]
  · intro k v fs ih1 ih2
    simp only [jsizeFields, printObjRest, printField, List.length_cons, List.length_append]
    omega

theorem jsize_pos (v : Json) : 1 ≤ jsize v := by
  cases v <;> simp [jsize]

theorem headNotWs_append (l r : List Char) (h : headNotWs l) : headNotWs (l ++ r) := by
  cases l with
  | nil => cases h
  | cons c t => exact h

theorem printJson_head_ex (v : Json) :
    ∃ c t, printJson v = c :: t ∧ isWsCh c = false ∧ ¬ c = ']' ∧ ¬ c = rbr := by
  cases v with
  | null =>
    exact ⟨'n', ['u', 'l', 'l'], by simp [printJson], by decide, by decide, by decide⟩
  | boolv b =>
    cases b
    · exact ⟨'f', ['a', 'l', 's', 'e'], by simp [printJson], by decide, by decide, by decide⟩
    · exact ⟨'t', ['r', 'u', 'e'], by simp [printJson], by decide, by decide, by decide⟩
  | num n =>
    obtain ⟨c, t, heq, hc⟩ := digit_head_intToChars n
    refine ⟨c, t, by simp [printJson, heq], ?_, ?_, ?_⟩
    · rcases hc with hc | hc
      · subst hc; decide
      · exact digit_not_ws c hc
    · rcases hc with hc | hc
      · subst hc; decide
      · intro he
        subst he
        revert hc
        decide
    · rcases hc with hc | hc
      · subst hc; decide
      · intro he
        subst he
        revert hc
        decide
  | str s =>
    exact ⟨dq, escString s ++ [dq], by simp [printJson], by decide, by decide, by decide⟩
  | arr xs =>
    cases xs with
    | nil => exact ⟨'[', [']'], by simp [printJson], by decide, by decide, by decide⟩
    | cons x xs2 =>
      exact ⟨'[', printJson x ++ printArrRest xs2, by simp [printJson],
        by decide, by decide, by decide⟩
  | obj fs =>
    cases fs with
    | nil => exact ⟨lbr, [rbr], by simp [printJson], by decide, by decide, by decide⟩
    | cons k v fs2 =>
      exact ⟨lbr, printField k v ++ printObjRest fs2, by simp [printJson],
        by decide, by decide, by decide⟩

theorem skipWs_printJson_append (v : Json) (r : List Char) :
    skipWs (printJson v ++ r) = printJson v ++ r := by
  obtain ⟨c, t, heq, hw, _, _⟩ := printJson_head_ex v
  apply skipWs_of_headNotWs
  apply headNotWs_append
  rw [heq]
  exact hw

theorem sepOk_printArrRest (ys : JsonList) (rest : List Char) :
    sepOk (printArrRest ys ++ rest) := by
  cases ys with
  | nil => simp [printArrRest, sepOk]
  | cons z zs => simp [printArrRest, sepOk]

theorem sepOk_printObjRest (fs : JsonFields) (rest : List Char) :
    sepOk (printObjRest fs ++ rest) := by
  cases fs with
  | nil => simp [printObjRest, sepOk]
  | cons k2 v2 fs2 => simp [printObjRest, sepOk]

theorem keysAllLt_weaken (k k2 : List Char) (hlt : cmpChars k k2 = .lt) :
    ∀ fs, keysAllLt fs k → keysAllLt fs k2 := by
  refine fieldsInduct (fun fs => keysAllLt fs k → keysAllLt fs k2) ?_ ?_
  · intro _; trivial
  · intro k3 v fs ih h
    exact ⟨cmpChars_lt_trans k3 k k2 h.1 hlt, ih h.2⟩

theorem digit_ne_special (c : Char) (h : isDigitCh c = true) :
    ¬ c = 'n' ∧ ¬ c = 't' ∧ ¬ c = 'f' ∧ ¬ c = dq ∧ ¬ c = '[' ∧ ¬ c = lbr := by
  simp only [isDigitCh, Bool.and_eq_true, decide_eq_true_eq] at h
  refine ⟨?_, ?_, ?_, ?_, ?_, ?_⟩ <;> intro he <;> subst he <;> revert h <;> decide

theorem skipWs_printField_append (k : List Char) (v : Json) (x : List Char) :
    skipWs (printField k v ++ x) = printField k v ++ x := by
  apply skipWs_of_headNotWs
  simp only [printField, List.cons_append]
  exact show isWsCh dq = false by decide

theorem parse_print_roundtrip (fuel : Nat) :
    (∀ v rest, Canon v → jsize v ≤ fuel → sepOk rest →
      parseValue fuel (printJson v ++ rest) = some (v, rest)) ∧
    (∀ y ys acc rest, Canon y → CanonList ys → jsize y + jsizeList ys + 1 ≤ fuel →
      sepOk rest →
      parseArrElems fuel (printJson y ++ (printArrRest ys ++ rest)) acc =
        some (.arr (jsonListConcat acc (.cons y ys)), rest)) ∧
    (∀ k v fs acc rest, Canon v → CanonFields fs → keyLtAll k fs → keysAllLt acc k →
      jsize v + jsizeFields fs + 1 ≤ fuel → sepOk rest →
      parseObjFields fuel (printField k v ++ (printObjRest fs ++ rest)) acc =
        some (.obj (fieldsConcat acc (.cons k v fs)), rest)) := by
  induction fuel with
  | zero =>
    refine ⟨?_, ?_, ?_⟩
    · intro v rest _ hsz _
      have := jsize_pos v
      omega
    · intro y ys acc rest _ _ hsz _
      omega
    · intro k v fs acc rest _ _ _ _ hsz _
      omega
  | succ f ih =>
    obtain ⟨ihA, ihB, ihC⟩ := ih
    refine ⟨?_, ?_, ?_⟩
    · -- parseValue on a printed value
      intro v rest hc hsz hsep
      cases v with
      | null =>
        simp only [printJson, List.cons_append, List.nil_append]
        rfl
      | boolv b =>
        cases b <;>
          (simp only [printJson, List.cons_append, List.nil_append]; rfl)
      | num n =>
        simp only [printJson]
        obtain ⟨c, t, heq, hcd⟩ := digit_head_intToChars n
        have hne : ¬ c = 'n' ∧ ¬ c = 't' ∧ ¬ c = 'f' ∧ ¬ c = dq ∧ ¬ c = '[' ∧ ¬ c = lbr := by
          rcases hcd with hcd | hcd
          · subst hcd
            exact ⟨by decide, by decide, by decide, by decide, by decide, by decide⟩
          · exact digit_ne_special c hcd
        rw [heq, List.cons_append, parseValue.eq_def]
        simp only [if_neg hne.1, if_neg hne.2.1, if_neg hne.2.2.1, if_neg hne.2.2.2.1,
          if_neg hne.2.2.2.2.1, if_neg hne.2.2.2.2.2]
        rw [← List.cons_append, ← heq,
          parseNumber_intToChars n rest (noNumCont_of_sepOk rest hsep)]
      | str s =>
        simp only [printJson, List.cons_append, List.append_assoc, List.singleton_append]
        rw [parseValue.eq_def]
        simp only [if_neg (show ¬ dq = 'n' by decide), if_neg (show ¬ dq = 't' by decide),
          if_neg (show ¬ dq = 'f' by decide), if_pos rfl, List.nil_append]
        rw [parseStringBody_escString s rest]
        simp
      | arr xs =>
        cases xs with
        | nil =>
          simp only [printJson, List.cons_append, List.nil_append]
          rw [parseValue.eq_def]
          simp only [if_neg (show ¬ '[' = 'n' by decide), if_neg (show ¬ '[' = 't' by decide),
            if_neg (show ¬ '[' = 'f' by decide), if_neg (show ¬ '[' = dq by decide),
            if_pos rfl]
          rw [skipWs_of_headNotWs (']' :: rest) (show isWsCh ']' = false by decide)]
          simp
        | cons x xs2 =>
          cases hc with
          | arr _ hl =>
            cases hl with
            | cons _ _ hx hxs =>
              simp only [printJson, List.cons_append, List.append_assoc]
              rw [parseValue.eq_def]
              simp only [if_neg (show ¬ '[' = 'n' by decide),
                if_neg (show ¬ '[' = 't' by decide), if_neg (show ¬ '[' = 'f' by decide),
                if_neg (show ¬ '[' = dq by decide), if_pos rfl]
              rw [skipWs_printJson_append x (printArrRest xs2 ++ rest)]
              obtain ⟨cx, tx, heqx, hwx, hne1, hne2⟩ := printJson_head_ex x
              rw [heqx, List.cons_append]
              simp only [if_neg hne1]
              rw [← List.cons_append, ← heqx]
              have hb := ihB x xs2 .nil rest hx hxs
                (by simp only [jsize, jsizeList] at hsz; omega) hsep
              rw [hb]
              simp [jsonListConcat]
      | obj fs =>
        cases fs with
        | nil =>
          simp only [printJson, List.cons_append, List.nil_append]
          rw [parseValue.eq_def]
          simp only [if_neg (show ¬ lbr = 'n' by decide), if_neg (show ¬ lbr = 't' by decide),
            if_neg (show ¬ lbr = 'f' by decide), if_neg (show ¬ lbr = dq by decide),
            if_neg (show ¬ lbr = '[' by decide), if_pos rfl]
          rw [skipWs_of_headNotWs (rbr :: rest) (show isWsCh rbr = false by decide)]
          simp
        | cons k v fs2 =>
          cases hc with
          | obj _ hf =>
            cases hf with
            | cons _ _ _ hv hfs hklt =>
              simp only [printJson, List.cons_append, List.append_assoc]
              rw [parseValue.eq_def]
              simp only [if_neg (show ¬ lbr = 'n' by decide),
                if_neg (show ¬ lbr = 't' by decide), if_neg (show ¬ lbr = 'f' by decide),
                if_neg (show ¬ lbr = dq by decide), if_neg (show ¬ lbr = '[' by decide),
                if_pos rfl]
              rw [skipWs_printField_append k v (printObjRest fs2 ++ rest)]
              simp only [printField, List.cons_append, List.append_assoc]
              simp only [if_neg (show ¬ dq = rbr by decide)]
              have hcall := ihC k v fs2 .nil rest hv hfs hklt trivial
                (by simp only [jsize, jsizeFields] at hsz; omega) hsep
              simp only [printField, List.cons_append, List.append_assoc] at hcall
              rw [hcall]
              simp [fieldsConcat]
    · -- parseArrElems on printed elements
      intro y ys acc rest hcy hcys hsz hsep
      rw [parseArrElems.eq_def]
      have hv := ihA y (printArrRest ys ++ rest) hcy
        (by have := jsize_pos y; omega) (sepOk_printArrRest ys rest)
      simp only [hv]
      cases ys with
      | nil =>
        simp only [printArrRest, List.cons_append, List.nil_append]
        rw [skipWs_of_headNotWs (']' :: rest) (show isWsCh ']' = false by decide)]
        simp only [if_neg (show ¬ ']' = ',' by decide), if_pos rfl]
        rw [jsonListAppend_eq_concat]
        simp
      | cons z zs =>
        cases hcys with
        | cons _ _ hz hzs =>
          simp only [printArrRest, List.cons_append, List.append_assoc]
          rw [skipWs_of_headNotWs (',' :: (printJson z ++ (printArrRest zs ++ rest)))
            (show isWsCh ',' = false by decide)]
          simp only [if_pos rfl]
          rw [skipWs_printJson_append z (printArrRest zs ++ rest)]
          have hb := ihB z zs (jsonListAppend acc y) rest hz hzs
            (by simp only [jsizeList] at hsz; have := jsize_pos y; omega) hsep
          rw [hb, jsonListConcat_append]
          simp
    · -- parseObjFields on printed fields
      intro k v fs acc rest hcv hcf hklt hacc hsz hsep
      rw [parseObjFields.eq_def]
      simp only [printField, List.cons_append, List.append_assoc]
      rw [parseStringBody_escString k (':' :: (printJson v ++ (printObjRest fs ++ rest)))]
      simp only [if_true]
      rw [skipWs_of_headNotWs (':' :: (printJson v ++ (printObjRest fs ++ rest)))
        (show isWsCh ':' = false by decide)]
      simp only [if_pos rfl]
      rw [skipWs_printJson_append v (printObjRest fs ++ rest)]
      have hv := ihA v (printObjRest fs ++ rest) hcv
        (by have := jsize_pos v; omega) (sepOk_printObjRest fs rest)
      simp only [hv]
      cases fs with
      | nil =>
        simp only [printObjRest, List.cons_append, List.nil_append]
        rw [skipWs_of_headNotWs (rbr :: rest) (show isWsCh rbr = false by decide)]
        simp only [if_neg (show ¬ rbr = ',' by decide), if_pos rfl]
        rw [objInsert_append k v acc hacc]
        simp
      | cons k2 v2 fs2 =>
        cases hcf with
        | cons _ _ _ hv2 hfs2 hklt2 =>
          simp only [printObjRest, List.cons_append, List.append_assoc]
          rw [skipWs_of_headNotWs
            (',' :: (printField k2 v2 ++ (printObjRest fs2 ++ rest)))
            (show isWsCh ',' = false by decide)]
          simp only [if_pos rfl]
          rw [skipWs_printField_append k2 v2 (printObjRest fs2 ++ rest)]
          have hacc2 : keysAllLt (objInsert k v acc) k2 := by
            rw [objInsert_append k v acc hacc]
            exact keysAllLt_concat k2 k v hklt.1 acc
              (keysAllLt_weaken k k2 hklt.1 acc hacc)
          have hcall := ihC k2 v2 fs2 (objInsert k v acc) rest hv2 hfs2 hklt2 hacc2
            (by simp only [jsizeFields] at hsz; have := jsize_pos v; omega) hsep
          rw [hcall]
          rw [objInsert_append k v acc hacc, fieldsConcat_assoc]
          simp [fieldsConcat]

theorem canonList_append (x : Json) (hx : Canon x) :
    ∀ acc, CanonList acc → CanonList (jsonListAppend acc x) := by
  refine listInduct (fun acc => CanonList acc → CanonList (jsonListAppend acc x)) ?_ ?_
  · intro _
    simp only [jsonListAppend]
    exact .cons x .nil hx .nil
  · intro y ys ih hacc
    cases hacc with
    | cons _ _ hy hys =>
      simp only [jsonListAppend]
      exact .cons y _ hy (ih hys)

theorem parse_canon (fuel : Nat) :
    (∀ s v r, parseValue fuel s = some (v, r) → Canon v) ∧
    (∀ s acc v r, parseArrElems fuel s acc = some (v, r) → CanonList acc → Canon v) ∧
    (∀ s acc v r, parseObjFields fuel s acc = some (v, r) → CanonFields acc → Canon v) := by
  induction fuel with
  | zero =>
    refine ⟨?_, ?_, ?_⟩
    · intro s v r h
      rw [show parseValue 0 s = none from rfl] at h
      cases h
    · intro s acc v r h
      rw [show parseArrElems 0 s acc = none from rfl] at h
      cases h
    · intro s acc v r h
      rw [show parseObjFields 0 s acc = none from rfl] at h
      cases h
  | succ f ih =>
    obtain ⟨ihA, ihB, ihC⟩ := ih
    refine ⟨?_, ?_, ?_⟩
    · intro s v r h
      cases s with
      | nil =>
        rw [show parseValue (f + 1) ([] : List Char) = none from rfl] at h
        cases h
      | cons c rest =>
        simp only [parseValue.eq_def] at h
        repeat' split at h
        all_goals first
          | exact ihB _ _ _ _ h .nil
          | exact ihC _ _ _ _ h .nil
          | (simp only [Option.some.injEq, Prod.mk.injEq] at h
             obtain ⟨rfl, rfl⟩ := h
             first
               | exact .null
               | exact .boolv _
               | exact .num _
               | exact .str _
               | exact .arr _ .nil
               | exact .obj _ .nil)
          | exact .null
          | exact .boolv _
          | exact .num _
          | exact .str _
          | exact .arr _ .nil
          | exact .obj _ .nil
          | cases h
    · intro s acc v r h hacc
      rw [parseArrElems.eq_def] at h
      cases hpv : parseValue f s with
      | none =>
        simp only [hpv] at h
        cases h
      | some p =>
        obtain ⟨v1, r1⟩ := p
        simp only [hpv] at h
        have hcv1 : Canon v1 := ihA _ _ _ hpv
        cases hws : skipWs r1 with
        | nil =>
          simp only [hws] at h
          cases h
        | cons c r2 =>
          simp only [hws] at h
          by_cases hc : c = ','
          · subst hc
            rw [if_pos rfl] at h
            exact ihB _ _ _ _ h (canonList_append v1 hcv1 acc hacc)
          · rw [if_neg hc] at h
            by_cases hc2 : c = ']'
            · subst hc2
              rw [if_pos rfl] at h
              simp only [Option.some.injEq, Prod.mk.injEq] at h
              obtain ⟨rfl, rfl⟩ := h
              exact .arr _ (canonList_append v1 hcv1 acc hacc)
            · rw [if_neg hc2] at h
              cases h
    · intro s acc v r h hacc
      cases s with
      | nil =>
        rw [show parseObjFields (f + 1) ([] : List Char) acc = none from rfl] at h
        cases h
      | cons c rest =>
        have hstep : parseObjFields (f + 1) (c :: rest) acc =
            (if c = dq then
              match parseStringBody rest with
              | some (k1, r1) =>
                (match skipWs r1 with
                 | c2 :: r2 =>
                   if c2 = ':' then
                     match parseValue f (skipWs r2) with
                     | some (v1, r3) =>
                       (match skipWs r3 with
                        | c3 :: r4 =>
                          if c3 = ',' then parseObjFields f (skipWs r4) (objInsert k1 v1 acc)
                          else if c3 = rbr then some (.obj (objInsert k1 v1 acc), r4)
                          else none
                        | [] => none)
                     | none => none
                   else none
                 | [] => none)
              | none => none
            else none) := rfl
        rw [hstep] at h
        by_cases hc : c = dq
        · rw [if_pos hc] at h
          cases hsb : parseStringBody rest with
          | none =>
            simp only [hsb] at h
            cases h
          | some p =>
            obtain ⟨k1, r1⟩ := p
            simp only [hsb] at h
            cases hws : skipWs r1 with
            | nil =>
              simp only [hws] at h
              cases h
            | cons c2 r2 =>
              simp only [hws] at h
              by_cases hc2 : c2 = ':'
              · subst hc2
                rw [if_pos rfl] at h
                cases hpv : parseValue f (skipWs r2) with
                | none =>
                  simp only [hpv] at h
                  cases h
                | some p2 =>
                  obtain ⟨v1, r3⟩ := p2
                  simp only [hpv] at h
                  have hcv1 : Canon v1 := ihA _ _ _ hpv
                  cases hws2 : skipWs r3 with
                  | nil =>
                    simp only [hws2] at h
                    cases h
                  | cons c3 r4 =>
                    simp only [hws2] at h
                    by_cases hc3 : c3 = ','
                    · subst hc3
                      rw [if_pos rfl] at h
                      exact ihC _ _ _ _ h (canonFields_objInsert k1 v1 hcv1 acc hacc)
                    · rw [if_neg hc3] at h
                      by_cases hc4 : c3 = rbr
                      · subst hc4
                        rw [if_pos rfl] at h
                        simp only [Option.some.injEq, Prod.mk.injEq] at h
                        obtain ⟨rfl, rfl⟩ := h
                        exact .obj _ (canonFields_objInsert k1 v1 hcv1 acc hacc)
                      · rw [if_neg hc4] at h
                        cases h
              · rw [if_neg hc2] at h
                cases h
        · rw [if_neg hc] at h
          cases h

/-- The shapes `json.Unmarshal` accepts into a `map[string]interface{}`:
an object, or the literal `null`. -/
def topOk : Json → Prop
  | .null => True
  | .obj _ => True
  | _ => False

theorem parseTop_some (s : String) (v : Json) (h : parseTop s = some v) :
    Canon v ∧ topOk v := by
  rw [parseTop] at h
  cases hpv : parseValue (2 * s.data.length + 2) (skipWs s.data) with
  | none =>
    rw [hpv] at h
    cases h
  | some p =>
    obtain ⟨v1, r⟩ := p
    simp only [hpv] at h
    by_cases hr : skipWs r = []
    · rw [if_pos hr] at h
      have hcv := (parse_canon _).1 _ _ _ hpv
      cases v1 with
      | null =>
        cases h
        exact ⟨hcv, trivial⟩
      | obj fs =>
        cases h
        exact ⟨hcv, trivial⟩
      | boolv b => cases h
      | num n => cases h
      | str s2 => cases h
      | arr xs => cases h
    · rw [if_neg hr] at h
      cases h

theorem parseTop_print (v : Json) (hc : Canon v) (htop : topOk v) :
    parseTop (String.mk (printJson v)) = some v := by
  rw [parseTop]
  have hdata : (String.mk (printJson v)).data = printJson v := rfl
  rw [hdata]
  rw [skipWs_of_headNotWs _ (printJson_headNotWs v)]
  have hfuel : jsize v ≤ 2 * (printJson v).length + 2 := by
    have := jsize_le_print.1 v
    omega
  have hr := (parse_print_roundtrip (2 * (printJson v).length + 2)).1 v [] hc hfuel trivial
  rw [List.append_nil] at hr
  simp only [hr]
  rw [if_pos (show skipWs [] = [] from rfl)]
  cases v with
  | null => rfl
  | obj fs => rfl
  | boolv b => exact htop.elim
  | num n => exact htop.elim
  | str s2 => exact htop.elim
  | arr xs => exact htop.elim

theorem normalize_print (s : String) (v : Json) (h : parseTop s = some v) :
    NormalizeGCPCredentials s = String.mk (printJson v) := by
  rw [NormalizeGCPCredentials, h]

/-- C8: the credential normalizer is idempotent on every string the
unmarshal step accepts, and the validator reports a non-empty error list on
every string it rejects — before any network call, the validator being a
pure function of its input. -/
theorem credentials_normalize_idem_validate :
    (∀ s v, parseTop s = some v →
      NormalizeGCPCredentials (NormalizeGCPCredentials s) = NormalizeGCPCredentials s) ∧
    (∀ s, parseTop s = none → (ValidateGCPCredentials s).2 ≠ []) := by
  constructor
  · intro s v h
    obtain ⟨hc, htop⟩ := parseTop_some s v h
    rw [normalize_print s v h, normalize_print _ v (parseTop_print v hc htop)]
  · intro s h
    simp [ValidateGCPCredentials, h]

theorem credentials_normalize_idem_validate_witness :
    parseTop "\x7b\"b\":2,\"a\":1\x7d" =
      some (.obj (.cons "a".data (.num 1) (.cons "b".data (.num 2) .nil))) ∧
    NormalizeGCPCredentials (NormalizeGCPCredentials "\x7b\"b\":2,\"a\":1\x7d") =
      NormalizeGCPCredentials "\x7b\"b\":2,\"a\":1\x7d" ∧
    parseTop "\x7bnot json" = none ∧
    (ValidateGCPCredentials "\x7bnot json").2 ≠ [] := by
  have hp : parseTop "\x7b\"b\":2,\"a\":1\x7d" =
      some (.obj (.cons "a".data (.num 1) (.cons "b".data (.num 2) .nil))) := by rfl
  have hn : parseTop "\x7bnot json" = none := by rfl
  exact ⟨hp, credentials_normalize_idem_validate.1 _ _ hp, hn,
    credentials_normalize_idem_validate.2 _ hn⟩

/-- C10: on every input the unmarshal step rejects, the normalizer returns
the empty string — it neither returns the input nor fails. -/
theorem normalize_nonjson_empty (s : String) (h : parseTop s = none) :
    NormalizeGCPCredentials s = "" := by
  simp [NormalizeGCPCredentials, h]

theorem normalize_nonjson_empty_witness :
    parseTop "\x7bnot json\x7d more" = none ∧
    NormalizeGCPCredentials "\x7bnot json\x7d more" = "" := by
  have h : parseTop "\x7bnot json\x7d more" = none := by rfl
  exact ⟨h, normalize_nonjson_empty _ h⟩

end VaultProvider
